import Mathlib

/-!
Shallow embedding of the `extsort` Go package: an external merge sort that
buffers key/value records in memory, spills each full buffer as one sorted,
adjacent-deduplicated section, and merges all sections through a heap-backed
iterator with last-write-wins deduplication.

The embedding follows `extsort.go` and `entry.go`.  The helper files of the
package (`memBuffer`, `tempWriter`/`tempReader`, `minHeap`, `Options`) are not
among the given sources; their definitions are modelled from the specification
(sections 4.1-4.4) and are marked as such in their doc comments.
-/

namespace Extsort

/-- Byte strings (Go `[]byte`) are modelled as lists of naturals. -/
abbrev Bytes := List Nat

/-- Record from `entry.go`: one key and one value, held in one buffer split at
`keyLen`; we model it as the pair of its two regions. -/
structure Rec where
  key : Bytes
  val : Bytes
deriving DecidableEq, Repr

/-- Byte size of one record, `len(key)+len(value)`. -/
def Rec.size (r : Rec) : Nat := r.key.length + r.val.length

/-- Record built by `Put(key, value)`. -/
def recOf (p : Bytes × Bytes) : Rec := ⟨p.1, p.2⟩

/-- Total byte size of a list of records. -/
def recsBytes (l : List Rec) : Nat := (l.map Rec.size).sum

/-- Modelled from the spec: `memBuffer` (RunBuffer, spec 4.1; its source file is
not among the given sources) is an insertion-ordered sequence of records plus a
running byte-size total. -/
structure MemBuffer where
  ents : List Rec := []
  size : Nat := 0
deriving DecidableEq, Repr

/-- Modelled from the spec: `memBuffer.Append` stores a copy of the record and
adds `len(key)+len(value)` to the running size (spec 4.1). -/
def MemBuffer.append (b : MemBuffer) (key val : Bytes) : MemBuffer :=
  { ents := b.ents ++ [⟨key, val⟩], size := b.size + key.length + val.length }

/-- Modelled from the spec: `memBuffer.ByteSize` is the O(1) running total
(spec 4.1). -/
def MemBuffer.byteSize (b : MemBuffer) : Nat := b.size

/-- Modelled from the spec: `memBuffer.Reset` releases all records and leaves
the byte size at zero (spec 4.1). -/
def MemBuffer.reset (_ : MemBuffer) : MemBuffer := {}

/-- Modelled from the spec: `tempWriter` (RunWriter, spec 4.2; its source file
is not among the given sources) holds the committed sections (tracked by their
end offsets) and the cumulative number of bytes written. -/
structure TempWriter where
  sections : List (List Rec) := []
  size : Nat := 0
deriving DecidableEq, Repr

variable (cmp : Bytes → Bytes → Ordering) (deq : Bytes → Bytes → Bool) (bsz : Nat)

/-- Stable insertion of a record into a sorted run: the new record is placed
before the first element that is not strictly below it, so that it precedes
every already-present record with an equal key. -/
def insertRec (r : Rec) : List Rec → List Rec
  | [] => [r]
  | x :: xs =>
    if cmp x.key r.key = Ordering.lt then x :: insertRec r xs else r :: x :: xs

/-- Modelled from the spec: `s.opt.Sort` (spec 4.1; the options source file is
not among the given sources) reorders the buffered records by the comparator;
per the last-write-wins requirement of spec 4.5/8 we use a stable sort,
realized as insertion sort. -/
def sortRecs (l : List Rec) : List Rec := l.foldr (insertRec cmp) []

/-- Dedup scan of `Sorter.flush` (extsort.go lines 80-94): a record is skipped
when the next record in sorted order has an equal key, and encoded otherwise.
The dedupe loop of `Iterator.Next` (lines 144-150) computes the same function
of the merged stream, which is proved below as `drainFuel_eq_dedupAdj`. -/
def dedupAdj : List Rec → List Rec
  | [] => []
  | [a] => [a]
  | a :: b :: t =>
    if deq a.key b.key then dedupAdj (b :: t) else a :: dedupAdj (b :: t)

/-- One flushed section: the buffer contents sorted, with each record that is
key-equal to its successor skipped (`Sorter.flush`, extsort.go lines 76-94). -/
def flushSection (l : List Rec) : List Rec := dedupAdj deq (sortRecs cmp l)

/-- Sorter (extsort.go lines 8-12): the run buffer and the lazily created
temp writer. -/
structure Sorter where
  buf : MemBuffer := {}
  tw : Option TempWriter := none
deriving DecidableEq, Repr

/-- Sections committed so far (empty before the writer exists). -/
def Sorter.sections (s : Sorter) : List (List Rec) :=
  (s.tw.map TempWriter.sections).getD []

/-- Sorter.flush (extsort.go lines 67-101): create the temp writer on first
use, sort the buffer, encode it through the dedup scan as one new section,
commit the section boundary, and reset the buffer. -/
def Sorter.flush (s : Sorter) : Sorter :=
  let tw := s.tw.getD {}
  let kept := flushSection cmp deq s.buf.ents
  { buf := s.buf.reset
    tw := some { sections := tw.sections ++ [kept], size := tw.size + recsBytes kept } }

/-- Sorter.Put (extsort.go lines 26-35): flush first when the buffer byte size
is positive and would grow beyond `BufferSize`, then append. -/
def Sorter.put (s : Sorter) (key val : Bytes) : Sorter :=
  let s :=
    if s.buf.byteSize > 0 ∧ s.buf.byteSize + key.length + val.length > bsz
    then s.flush cmp deq else s
  { s with buf := s.buf.append key val }

/-- Sorter.Append (extsort.go lines 21-23): `Put(data, nil)`. -/
def Sorter.appendData (s : Sorter) (data : Bytes) : Sorter :=
  s.put cmp deq bsz data []

/-- Sorter.Size (extsort.go lines 58-65): buffered bytes, plus written bytes
once the writer exists. -/
def Sorter.size (s : Sorter) : Nat :=
  match s.tw with
  | none => s.buf.byteSize
  | some tw => s.buf.byteSize + tw.size

/-- Run a sequence of `Put` calls from a given sorter state. -/
def runPutsFrom (ps : List (Bytes × Bytes)) (s : Sorter) : Sorter :=
  ps.foldl (fun s p => s.put cmp deq bsz p.1 p.2) s

/-- Run a sequence of `Put` calls from a fresh sorter (`New`). -/
def runPuts (ps : List (Bytes × Bytes)) : Sorter := runPutsFrom cmp deq bsz ps {}

/-- Modelled from the spec: the merge heap (spec 4.4; the heap source file is
not among the given sources) orders pending `(section, record)` entries by the
comparator, breaking ties in favour of the lower section index. -/
def heapLE (a b : Nat × Rec) : Bool :=
  match cmp a.2.key b.2.key with
  | Ordering.lt => true
  | Ordering.eq => decide (a.1 ≤ b.1)
  | Ordering.gt => false

/-- PopEntry of the merge heap (spec 4.4): remove and return the minimum
pending entry, modelling the heap contents as an unordered list. -/
def popMin : List (Nat × Rec) → Option ((Nat × Rec) × List (Nat × Rec))
  | [] => none
  | a :: t =>
    match popMin t with
    | none => some (a, [])
    | some (m, t') => if heapLE cmp a m then some (a, t) else some (m, a :: t')

/-- Modelled from the spec: `tempReader.ReadNext` (spec 4.3; the reader source
file is not among the given sources) decodes the next record of one section,
advancing that section's private cursor; `none` signals exhaustion. -/
def readNext : Nat → List (List Rec) → Option Rec × List (List Rec)
  | _, [] => (none, [])
  | 0, s :: rest => (s.head?, s.tail :: rest)
  | i + 1, s :: rest =>
    let r := readNext i rest
    (r.1, s :: r.2)

/-- State of the merging iterator: the per-section read cursors and the heap
contents (extsort.go lines 106-115, in the error-free case). -/
structure MergeState where
  secs : List (List Rec)
  heap : List (Nat × Rec)
deriving DecidableEq, Repr

/-- Number of records still to be produced from a merge state. -/
def MergeState.msize (st : MergeState) : Nat :=
  st.heap.length + (st.secs.map List.length).sum

/-- Iterator.next (extsort.go lines 155-176), error-free case: pop the heap
minimum and refill the heap from the popped entry's section. -/
def istep (st : MergeState) : Option ((Nat × Rec) × MergeState) :=
  match popMin cmp st.heap with
  | none => none
  | some ((i, r), h) =>
    match readNext i st.secs with
    | (some r2, secs2) => some ((i, r), ⟨secs2, (i, r2) :: h⟩)
    | (none, secs2) => some ((i, r), ⟨secs2, h⟩)

/-- Sequence of `(section, record)` pairs produced by repeated `Iterator.next`
calls, with explicit fuel (the fuel is irrelevant once it reaches `msize`). -/
def streamFuel : Nat → MergeState → List (Nat × Rec)
  | 0, _ => []
  | n + 1, st =>
    match istep cmp st with
    | none => []
    | some (e, st2) => e :: streamFuel n st2

/-- Sequence of `(section, record)` pairs produced by the iterator's `next`. -/
def streamT (st : MergeState) : List (Nat × Rec) := streamFuel cmp st.msize st

/-- Initial heap contents: the first record of every section, tagged with its
section index (`fillHeap` calls in newIterator, extsort.go lines 124-129). -/
def headsFrom : Nat → List (List Rec) → List (Nat × Rec)
  | _, [] => []
  | i, s :: rest =>
    (match s.head? with
     | some r => [(i, r)]
     | none => []) ++ headsFrom (i + 1) rest

/-- Merge state built by `newIterator` (extsort.go lines 117-134): every
section contributes its first record to the heap, and its cursor advances
past that record. -/
def initMerge (secs : List (List Rec)) : MergeState :=
  ⟨secs.map List.tail, headsFrom 0 secs⟩

/-- Inner loop of `Iterator.Next` (extsort.go lines 144-150): starting from the
adopted record `ent`, keep adopting the lookahead while its key is equal. -/
def nextLoop : Nat → Rec → MergeState → Rec × Option (Nat × Rec) × MergeState
  | 0, ent, st => (ent, none, st)
  | n + 1, ent, st =>
    match istep cmp st with
    | none => (ent, none, st)
    | some ((i, r), st2) =>
      if deq ent.key r.key then nextLoop n r st2 else (ent, some (i, r), st2)

/-- Records returned by repeatedly calling `Iterator.Next` (extsort.go lines
137-153) until it reports no more, given the primed lookahead. -/
def drainFuel : Nat → Option (Nat × Rec) → MergeState → List Rec
  | 0, _, _ => []
  | _ + 1, none, _ => []
  | n + 1, some (_, ent), st =>
    let r := nextLoop cmp deq st.msize ent st
    r.1 :: drainFuel n r.2.1 r.2.2

/-- Full output of the iterator over the given sections: prime the lookahead
(`iter.nextOK = iter.next()`, extsort.go line 131), then drain `Next`. -/
def iterOut (secs : List (List Rec)) : List Rec :=
  let st := initMerge secs
  match istep cmp st with
  | none => []
  | some (e, st2) => drainFuel cmp deq (st2.msize + 1) (some e) st2

/-- Output of `Sort()` plus iteration after a sequence of `Put` calls: final
flush, then the merging iterator (extsort.go lines 38-48). -/
def sortOut (ps : List (Bytes × Bytes)) : List Rec :=
  iterOut cmp deq ((runPuts cmp deq bsz ps |>.flush cmp deq).sections)

/-! ### Derived notions used by the specification claims -/

/-- Records of the merged stream, without their section tags. -/
def streamRecs (st : MergeState) : List Rec := (streamT cmp st).map Prod.snd

/-- Section at a given index, the empty section beyond the end. -/
def secAt : List (List Rec) → Nat → List Rec
  | [], _ => []
  | s :: _, 0 => s
  | _ :: rest, i + 1 => secAt rest i

/-- All remaining `(section, record)` pairs of the read cursors, tags starting
at `n`. -/
def taggedFrom : Nat → List (List Rec) → List (Nat × Rec)
  | _, [] => []
  | i, s :: rest => s.map (fun r => (i, r)) ++ taggedFrom (i + 1) rest

/-- All remaining `(section, record)` pairs of the read cursors. -/
def taggedOf (secs : List (List Rec)) : List (Nat × Rec) := taggedFrom 0 secs

/-- Key comparison as a proposition: `compare(a.Key, b.Key) <= 0`. -/
def KeyLe (a b : Rec) : Prop := cmp a.key b.key ≠ Ordering.gt

/-- Heap ordering as a proposition. -/
def HLe (a b : Nat × Rec) : Prop := heapLE cmp a b = true

/-- Every non-exhausted section still has one pending entry in the heap. -/
def Covers (st : MergeState) : Prop :=
  ∀ i, secAt st.secs i ≠ [] → ∃ r, (i, r) ∈ st.heap

/-- Invariant of the merging iterator's state: pending entries carry distinct
section indices, each bounds its section's remaining records from below, the
remaining section contents are sorted, and no section is silently dropped. -/
structure MInv (st : MergeState) : Prop where
  uniq : st.heap.Pairwise fun a b => a.1 ≠ b.1
  bound : ∀ e ∈ st.heap, ∀ r ∈ secAt st.secs e.1, KeyLe cmp e.2 r
  sorted : ∀ i, (secAt st.secs i).Pairwise (KeyLe cmp)
  covers : Covers st

/-- Lexicographic byte comparison, as Go's `bytes.Compare`. -/
def bytesCmp : Bytes → Bytes → Ordering
  | [], [] => Ordering.eq
  | [], _ :: _ => Ordering.lt
  | _ :: _, [] => Ordering.gt
  | a :: as, b :: bs =>
    match compare a b with
    | Ordering.eq => bytesCmp as bs
    | o => o

/-- Byte-string equality, as Go's `bytes.Equal`. -/
def bytesEq (a b : Bytes) : Bool := a == b

/-- Equality predicate used when no `Equal` option is configured: never equal
(spec 3, Options; `opt.dedup` lives in the options source file, which is not
among the given sources). -/
def neverEq (_ _ : Bytes) : Bool := false

/-! ### Fallible models for the error-path claims -/

/-- One stored cell of a section as seen by the fallible reader: a record or a
decode failure (external storage corruption, spec 4.5). -/
abbrev Cell := Except String Rec

/-- Modelled from the spec: fallible `tempReader.ReadNext` (spec 4.3; the
reader source file is not among the given sources), with decode outcomes made
explicit. -/
def freadNext : Nat → List (List Cell) → Option Cell × List (List Cell)
  | _, [] => (none, [])
  | 0, s :: rest => (s.head?, s.tail :: rest)
  | i + 1, s :: rest =>
    let r := freadNext i rest
    (r.1, s :: r.2)

/-- Iterator state (extsort.go lines 106-115) over the fallible reader:
cursors, heap, the lookahead `nextEnt`, the captured error `err`, and
`nextOK`. -/
structure FIter where
  secs : List (List Cell)
  heap : List (Nat × Rec)
  nextEnt : Option Rec
  err : Option String
  nextOK : Bool
deriving Repr

/-- Records still to be produced by the fallible iterator. -/
def FIter.fmsize (st : FIter) : Nat :=
  st.heap.length + (st.secs.map List.length).sum

/-- Iterator.next (extsort.go lines 155-176): report no more on a captured
error or an empty heap; otherwise pop the minimum and refill the heap from the
popped entry's section, capturing a decode failure in `err`. -/
def fnext (st : FIter) : Bool × FIter :=
  if st.err.isSome then (false, st)
  else
    match popMin cmp st.heap with
    | none => (false, st)
    | some ((i, r), h) =>
      match freadNext i st.secs with
      | (some (Except.error e), secs2) =>
        (false, { st with heap := h, secs := secs2, err := some e })
      | (some (Except.ok r2), secs2) =>
        (true, { st with heap := (i, r2) :: h, secs := secs2, nextEnt := some r })
      | (none, secs2) =>
        (true, { st with heap := h, secs := secs2, nextEnt := some r })

/-- Inner loop of `Iterator.Next` (extsort.go lines 144-150) over the fallible
iterator: keep adopting the lookahead while its key is equal; when `next`
reports no more, record `nextOK = false` and still return true. -/
def fNextLoop : Nat → Rec → FIter → Bool × FIter
  | 0, _, st => (true, { st with nextOK := false })
  | n + 1, ent, st =>
    match fnext cmp st with
    | (false, st2) => (true, { st2 with nextOK := false })
    | (true, st2) =>
      match st2.nextEnt with
      | none => (true, { st2 with nextOK := false })
      | some la =>
        if deq ent.key la.key then fNextLoop n la st2 else (true, st2)

/-- Iterator.Next (extsort.go lines 137-153) over the fallible iterator. -/
def fNext (st : FIter) : Bool × FIter :=
  if st.nextOK then
    match st.nextEnt with
    | none => (true, { st with nextOK := false })
    | some ent => fNextLoop cmp deq st.fmsize ent st
  else (false, st)

/-- State reached after `n` further `Next` calls. -/
def fNextIter (n : Nat) (st : FIter) : FIter :=
  (fun s => (fNext cmp deq s).2)^[n] st

/-- Outcome plan for write operations: each entry is `none` for success or
`some e` for an I/O failure surfaced by that operation. -/
abbrev IOPlan := List (Option String)

/-- Consume the outcome of one write operation (empty plan means success). -/
def ioStep : IOPlan → Option String × IOPlan
  | [] => (none, [])
  | o :: rest => (o, rest)

/-- Fallible sorter: the sorter state plus the I/O outcome oracle. -/
structure FSorter where
  buf : MemBuffer := {}
  tw : Option TempWriter := none
  plan : IOPlan := []
deriving DecidableEq, Repr

/-- Encode the kept records one by one; an I/O failure aborts the loop with
the partially advanced writer (`Sorter.flush`, extsort.go lines 80-94). -/
def fencode : List Rec → TempWriter → IOPlan → Option String × TempWriter × IOPlan
  | [], tw, p => (none, tw, p)
  | r :: rest, tw, p =>
    match ioStep p with
    | (some e, p2) => (some e, tw, p2)
    | (none, p2) => fencode rest { tw with size := tw.size + r.size } p2

/-- Encode-and-commit part of `Sorter.flush` (extsort.go lines 76-100) once
the temp writer exists: the buffer is first sorted in place (`s.opt.Sort(s.buf)`,
extsort.go line 78); on any later failure the error is returned, the section
boundary is not committed and the buffer is left sorted but unreset; on
success the section is committed and the buffer reset. -/
def fflushWith (s : FSorter) : Except String Unit × FSorter :=
  let tw0 := s.tw.getD {}
  let sorted := sortRecs cmp s.buf.ents
  let kept := dedupAdj deq sorted
  let bufS : MemBuffer := { ents := sorted, size := s.buf.size }
  match fencode kept tw0 s.plan with
  | (some e, tw1, p2) =>
    (Except.error e, { buf := bufS, tw := some tw1, plan := p2 })
  | (none, tw1, p2) =>
    match ioStep p2 with
    | (some e, p3) =>
      (Except.error e, { buf := bufS, tw := some tw1, plan := p3 })
    | (none, p3) =>
      (Except.ok (),
        { buf := s.buf.reset,
          tw := some { sections := tw1.sections ++ [kept], size := tw1.size },
          plan := p3 })

/-- Sorter.flush (extsort.go lines 67-101) with explicit I/O outcomes: create
the temp writer on first use (a fallible operation), then encode and commit. -/
def fflush (s : FSorter) : Except String Unit × FSorter :=
  match s.tw with
  | none =>
    match ioStep s.plan with
    | (some e, p2) => (Except.error e, { s with plan := p2 })
    | (none, p2) => fflushWith cmp deq { s with tw := some {}, plan := p2 }
  | some _ => fflushWith cmp deq s

/-- Sorter.Put (extsort.go lines 26-35) with explicit I/O outcomes: a failing
flush aborts the call before the record is appended. -/
def fput (s : FSorter) (key val : Bytes) : Except String Unit × FSorter :=
  if s.buf.byteSize > 0 ∧ s.buf.byteSize + key.length + val.length > bsz then
    match fflush cmp deq s with
    | (Except.error e, s2) => (Except.error e, s2)
    | (Except.ok _, s2) => (Except.ok (), { s2 with buf := s2.buf.append key val })
  else (Except.ok (), { s with buf := s.buf.append key val })

/-! ### Comparator layer -/

theorem heapLE_iff {a b : Nat × Rec} :
    heapLE cmp a b = true ↔
      (cmp a.2.key b.2.key = Ordering.lt ∨
        (cmp a.2.key b.2.key = Ordering.eq ∧ a.1 ≤ b.1)) := by
  unfold heapLE
  rcases h : cmp a.2.key b.2.key <;> simp [h]

theorem hle_refl [Batteries.TransCmp cmp] (a : Nat × Rec) : HLe cmp a a := by
  rw [HLe, heapLE_iff]
  exact Or.inr ⟨Batteries.OrientedCmp.cmp_refl, Nat.le_refl _⟩

theorem hle_trans [Batteries.TransCmp cmp] {a b c : Nat × Rec}
    (hab : HLe cmp a b) (hbc : HLe cmp b c) : HLe cmp a c := by
  rw [HLe, heapLE_iff] at *
  rcases hab with h1 | ⟨h1, i1⟩ <;> rcases hbc with h2 | ⟨h2, i2⟩
  · exact Or.inl (Batteries.TransCmp.lt_trans h1 h2)
  · exact Or.inl (Batteries.TransCmp.lt_le_trans h1 (by simp [h2]))
  · exact Or.inl (Batteries.TransCmp.le_lt_trans (by simp [h1]) h2)
  · exact Or.inr ⟨(Batteries.TransCmp.cmp_congr_right h2).symm ▸ h1, Nat.le_trans i1 i2⟩

theorem hle_total [Batteries.TransCmp cmp] (a b : Nat × Rec)
    (h : ¬ HLe cmp a b) : HLe cmp b a := by
  rw [HLe, heapLE_iff] at *
  rcases hc : cmp a.2.key b.2.key with _ | _ | _
  · exact absurd (Or.inl hc) h
  · refine Or.inr ⟨Batteries.OrientedCmp.cmp_eq_eq_symm.mp hc, ?_⟩
    have : ¬ a.1 ≤ b.1 := fun hle => h (Or.inr ⟨hc, hle⟩)
    omega
  · exact Or.inl (Batteries.OrientedCmp.cmp_eq_gt.mp hc)

theorem HLe.keyLe {a b : Nat × Rec} (h : HLe cmp a b) : KeyLe cmp a.2 b.2 := by
  rw [HLe, heapLE_iff] at h
  rcases h with h | ⟨h, _⟩ <;> simp [KeyLe, h]

theorem natCompare_swap (a b : Nat) : (compare a b).swap = compare b a := by
  rcases Nat.lt_trichotomy a b with h | h | h
  · rw [Nat.compare_eq_lt.mpr h, Nat.compare_eq_gt.mpr h]; rfl
  · rw [Nat.compare_eq_eq.mpr h, Nat.compare_eq_eq.mpr h.symm]; rfl
  · rw [Nat.compare_eq_gt.mpr h, Nat.compare_eq_lt.mpr h]; rfl

theorem bytesCmp_swap : ∀ a b : Bytes, (bytesCmp a b).swap = bytesCmp b a := by
  intro a
  induction a with
  | nil => intro b; cases b <;> rfl
  | cons x as ih =>
    intro b
    cases b with
    | nil => rfl
    | cons y bs =>
      simp only [bytesCmp]
      rw [← natCompare_swap x y]
      rcases h : compare x y with _ | _ | _
      · rfl
      · exact ih bs
      · rfl

theorem bytesCmp_le_trans : ∀ {a b c : Bytes},
    bytesCmp a b ≠ Ordering.gt → bytesCmp b c ≠ Ordering.gt →
    bytesCmp a c ≠ Ordering.gt := by
  intro a
  induction a with
  | nil =>
    intro b c _ _
    cases c <;> simp [bytesCmp]
  | cons x as ih =>
    intro b c hab hbc
    cases b with
    | nil => cases hab (by rfl)
    | cons y bs =>
      cases c with
      | nil => cases hbc (by rfl)
      | cons z cs =>
        simp only [bytesCmp] at *
        rcases hxy : compare x y with _ | _ | _ <;>
          rcases hyz : compare y z with _ | _ | _ <;>
            simp [hxy, hyz] at hab hbc ⊢
        · have hxz : compare x z = Ordering.lt :=
            Nat.compare_eq_lt.mpr
              (Nat.lt_trans (Nat.compare_eq_lt.mp hxy) (Nat.compare_eq_lt.mp hyz))
          simp [hxz]
        · have hxz : compare x z = Ordering.lt := by
            rw [← Nat.compare_eq_eq.mp hyz]; exact hxy
          simp [hxz]
        · have hxz : compare x z = Ordering.lt := by
            rw [Nat.compare_eq_eq.mp hxy]; exact hyz
          simp [hxz]
        · have hxz : compare x z = Ordering.eq := by
            rw [Nat.compare_eq_eq.mp hxy]; exact hyz
          simp [hxz]
          exact ih hab hbc

instance bytesCmp_transCmp : Batteries.TransCmp bytesCmp where
  symm := bytesCmp_swap
  le_trans := bytesCmp_le_trans

/-! ### Heap lemmas -/

theorem popMin_eq_none_iff {h : List (Nat × Rec)} : popMin cmp h = none ↔ h = [] := by
  cases h with
  | nil => simp [popMin]
  | cons a t =>
    rcases hm : popMin cmp t with _ | ⟨m, t'⟩ <;> simp only [popMin, hm]
    · simp
    · split <;> simp

theorem popMin_perm {h : List (Nat × Rec)} {m t} (hp : popMin cmp h = some (m, t)) :
    h.Perm (m :: t) := by
  induction h generalizing m t with
  | nil => simp [popMin] at hp
  | cons a t0 ih =>
    rcases hm : popMin cmp t0 with _ | ⟨m0, t0'⟩ <;> simp only [popMin, hm] at hp
    · simp only [Option.some.injEq, Prod.mk.injEq] at hp
      obtain ⟨rfl, rfl⟩ := hp
      have ht0 : t0 = [] := (popMin_eq_none_iff cmp).mp hm
      subst ht0
      exact List.Perm.refl _
    · by_cases hc : heapLE cmp a m0 = true
      · rw [if_pos hc] at hp
        simp only [Option.some.injEq, Prod.mk.injEq] at hp
        obtain ⟨rfl, rfl⟩ := hp
        exact List.Perm.refl _
      · rw [if_neg hc] at hp
        simp only [Option.some.injEq, Prod.mk.injEq] at hp
        obtain ⟨rfl, rfl⟩ := hp
        exact ((ih hm).cons a).trans (List.Perm.swap m0 a t0')

theorem popMin_min [Batteries.TransCmp cmp] {h : List (Nat × Rec)} {m t}
    (hp : popMin cmp h = some (m, t)) : ∀ x ∈ h, HLe cmp m x := by
  induction h generalizing m t with
  | nil => simp [popMin] at hp
  | cons a t0 ih =>
    rcases hm : popMin cmp t0 with _ | ⟨m0, t0'⟩ <;> simp only [popMin, hm] at hp
    · simp only [Option.some.injEq, Prod.mk.injEq] at hp
      obtain ⟨rfl, rfl⟩ := hp
      have ht0 : t0 = [] := (popMin_eq_none_iff cmp).mp hm
      subst ht0
      intro x hx
      rcases List.mem_singleton.mp hx with rfl
      exact hle_refl cmp _
    · by_cases hc : heapLE cmp a m0 = true
      · rw [if_pos hc] at hp
        simp only [Option.some.injEq, Prod.mk.injEq] at hp
        obtain ⟨rfl, rfl⟩ := hp
        intro x hx
        rcases List.mem_cons.mp hx with rfl | hx
        · exact hle_refl cmp _
        · exact hle_trans cmp hc (ih hm x hx)
      · rw [if_neg hc] at hp
        simp only [Option.some.injEq, Prod.mk.injEq] at hp
        obtain ⟨rfl, rfl⟩ := hp
        intro x hx
        rcases List.mem_cons.mp hx with rfl | hx
        · exact hle_total cmp x m0 hc
        · exact ih hm x hx

theorem popMin_length {h : List (Nat × Rec)} {m t}
    (hp : popMin cmp h = some (m, t)) : h.length = t.length + 1 := by
  simpa using (popMin_perm cmp hp).length_eq

/-! ### Reader lemmas -/

theorem readNext_fst : ∀ (i : Nat) (secs : List (List Rec)),
    (readNext i secs).1 = (secAt secs i).head? := by
  intro i secs
  induction secs generalizing i with
  | nil => cases i <;> rfl
  | cons s rest ih =>
    cases i with
    | zero => rfl
    | succ n => simpa [readNext, secAt] using ih n

theorem readNext_snd : ∀ (i : Nat) (secs : List (List Rec)) (j : Nat),
    secAt (readNext i secs).2 j =
      if j = i then (secAt secs i).tail else secAt secs j := by
  intro i secs
  induction secs generalizing i with
  | nil =>
    intro j
    cases i <;> cases j <;> simp [readNext, secAt]
  | cons s rest ih =>
    intro j
    cases i with
    | zero => cases j <;> simp [readNext, secAt]
    | succ n =>
      cases j with
      | zero => simp [readNext, secAt]
      | succ m => simpa [readNext, secAt] using ih n m

theorem readNext_none_snd : ∀ (i : Nat) (secs : List (List Rec)),
    (readNext i secs).1 = none → (readNext i secs).2 = secs := by
  intro i secs
  induction secs generalizing i with
  | nil => intro _; cases i <;> rfl
  | cons s rest ih =>
    intro h
    cases i with
    | zero =>
      cases s with
      | nil => rfl
      | cons a t => simp [readNext] at h
    | succ n =>
      have h' : (readNext n rest).1 = none := by simpa [readNext] using h
      simp [readNext, ih n h']

theorem readNext_some_sum : ∀ (i : Nat) (secs : List (List Rec)) (r : Rec),
    (readNext i secs).1 = some r →
      ((readNext i secs).2.map List.length).sum + 1 = (secs.map List.length).sum := by
  intro i secs
  induction secs generalizing i with
  | nil => intro r h; cases i <;> simp [readNext] at h
  | cons s rest ih =>
    intro r h
    cases i with
    | zero =>
      cases s with
      | nil => simp [readNext] at h
      | cons a t => simp [readNext]; omega
    | succ n =>
      have h' : (readNext n rest).1 = some r := by simpa [readNext] using h
      have := ih n r h'
      simp [readNext]
      omega

/-! ### Tagged-cursor lemmas -/

theorem mem_taggedFrom : ∀ (n : Nat) (secs : List (List Rec)) (e : Nat × Rec),
    e ∈ taggedFrom n secs ↔ ∃ j, e.1 = n + j ∧ e.2 ∈ secAt secs j := by
  intro n secs
  induction secs generalizing n with
  | nil => intro e; simp [taggedFrom, secAt]
  | cons s rest ih =>
    rintro ⟨ei, er⟩
    simp only [taggedFrom, List.mem_append, List.mem_map, ih (n + 1)]
    constructor
    · rintro (⟨r, hr, he⟩ | ⟨j, hj, hm⟩)
      · cases he
        exact ⟨0, by simp, by simpa [secAt] using hr⟩
      · exact ⟨j + 1, by omega, by simpa [secAt] using hm⟩
    · rintro ⟨j, hj, hm⟩
      cases j with
      | zero =>
        left
        refine ⟨er, by simpa [secAt] using hm, ?_⟩
        have hei : ei = n := by omega
        rw [hei]
      | succ m =>
        right
        exact ⟨m, by omega, by simpa [secAt] using hm⟩

theorem taggedFrom_map_snd : ∀ (n : Nat) (secs : List (List Rec)),
    (taggedFrom n secs).map Prod.snd = secs.flatten := by
  intro n secs
  induction secs generalizing n with
  | nil => rfl
  | cons s rest ih =>
    simp [taggedFrom, List.map_append, List.map_map, ih (n + 1), Function.comp]

theorem taggedFrom_readNext_some : ∀ (i : Nat) (secs : List (List Rec)) (r : Rec),
    (readNext i secs).1 = some r → ∀ n,
      (taggedFrom n secs).Perm ((n + i, r) :: taggedFrom n (readNext i secs).2) := by
  intro i secs
  induction secs generalizing i with
  | nil => intro r h; cases i <;> simp [readNext] at h
  | cons s rest ih =>
    intro r h n
    cases i with
    | zero =>
      cases s with
      | nil => simp [readNext] at h
      | cons a t =>
        have ha : a = r := by simpa [readNext] using h
        subst ha
        simp [readNext, taggedFrom]
    | succ m =>
      have h' : (readNext m rest).1 = some r := by simpa [readNext] using h
      have hperm := ih m r h' (n + 1)
      have hsnd : (readNext (m + 1) (s :: rest)).2 = s :: (readNext m rest).2 := by
        simp [readNext]
      rw [hsnd]
      have heq : n + 1 + m = n + (m + 1) := by omega
      rw [heq] at hperm
      have h1 : (taggedFrom n (s :: rest)).Perm
          (s.map (fun x => (n, x)) ++
            ((n + (m + 1), r) :: taggedFrom (n + 1) (readNext m rest).2)) :=
        List.Perm.append_left _ hperm
      have h2 : (s.map (fun x => (n, x)) ++
            ((n + (m + 1), r) :: taggedFrom (n + 1) (readNext m rest).2)).Perm
          ((n + (m + 1), r) ::
            (s.map (fun x => (n, x)) ++ taggedFrom (n + 1) (readNext m rest).2)) :=
        List.perm_middle
      exact h1.trans h2

/-! ### Initial-heap lemmas -/

theorem mem_headsFrom : ∀ (n : Nat) (secs : List (List Rec)) (e : Nat × Rec),
    e ∈ headsFrom n secs ↔ ∃ j, e.1 = n + j ∧ (secAt secs j).head? = some e.2 := by
  intro n secs
  induction secs generalizing n with
  | nil =>
    intro e
    simp only [headsFrom, List.not_mem_nil, false_iff, not_exists]
    intro j
    simp [secAt]
  | cons s rest ih =>
    rintro ⟨ei, er⟩
    simp only [headsFrom, List.mem_append, ih (n + 1)]
    constructor
    · rintro (hhd | ⟨j, hj, hm⟩)
      · cases hs : s.head? with
        | none => rw [hs] at hhd; simp at hhd
        | some r =>
          rw [hs] at hhd
          simp at hhd
          refine ⟨0, by omega, ?_⟩
          simp only [secAt, hs]
          rw [hhd.2]
      · exact ⟨j + 1, by omega, by simpa [secAt] using hm⟩
    · rintro ⟨j, hj, hm⟩
      cases j with
      | zero =>
        left
        simp only [secAt] at hm
        simp only [hm, List.mem_singleton, Prod.mk.injEq]
        exact ⟨by omega, trivial⟩
      | succ m =>
        right
        exact ⟨m, by omega, by simpa [secAt] using hm⟩

theorem headsFrom_pairwise_lt : ∀ (n : Nat) (secs : List (List Rec)),
    (headsFrom n secs).Pairwise fun a b => a.1 < b.1 := by
  intro n secs
  induction secs generalizing n with
  | nil => exact List.Pairwise.nil
  | cons s rest ih =>
    rw [headsFrom, List.pairwise_append]
    refine ⟨?_, ih (n + 1), ?_⟩
    · cases s.head? <;> simp
    · intro a ha b hb
      have hb' := (mem_headsFrom (n + 1) rest b).mp hb
      obtain ⟨j, hj, -⟩ := hb'
      have : a.1 = n := by
        cases hs : s.head? <;> rw [hs] at ha <;> simp at ha
        rw [ha]
      omega

theorem headsFrom_tagged_perm : ∀ (n : Nat) (secs : List (List Rec)),
    (headsFrom n secs ++ taggedFrom n (secs.map List.tail)).Perm
      (taggedFrom n secs) := by
  intro n secs
  induction secs generalizing n with
  | nil => simp [headsFrom, taggedFrom]
  | cons s rest ih =>
    cases s with
    | nil =>
      simp only [headsFrom, taggedFrom, List.map_cons, List.head?_nil, List.tail_nil]
      simpa [taggedFrom] using ih (n + 1)
    | cons a t =>
      simp only [headsFrom, taggedFrom, List.map_cons, List.head?_cons, List.tail_cons,
        List.map_nil, List.singleton_append, List.cons_append, List.append_assoc]
      refine List.Perm.cons _ ?_
      have h1 := List.perm_append_comm_assoc (headsFrom (n + 1) rest)
        (t.map fun x => (n, x)) (taggedFrom (n + 1) (rest.map List.tail))
      exact h1.trans (List.Perm.append_left _ (ih (n + 1)))

/-! ### Merge-step lemmas -/

theorem istep_eq_none_iff {st : MergeState} : istep cmp st = none ↔ st.heap = [] := by
  rcases hp : popMin cmp st.heap with _ | ⟨⟨i, r⟩, hh⟩ <;> simp only [istep, hp]
  · simp [(popMin_eq_none_iff cmp).mp hp]
  · have hne : st.heap ≠ [] := by
      intro hnil
      rw [(popMin_eq_none_iff cmp).mpr hnil] at hp
      cases hp
    rcases hr : readNext i st.secs with ⟨o, secs2⟩
    cases o <;> simp [hr, hne]

theorem istep_shape {st : MergeState} {i : Nat} {r : Rec} {st2 : MergeState}
    (h : istep cmp st = some ((i, r), st2)) :
    ∃ hh, popMin cmp st.heap = some ((i, r), hh) ∧
      ((∃ r2, (readNext i st.secs).1 = some r2 ∧
          st2 = ⟨(readNext i st.secs).2, (i, r2) :: hh⟩) ∨
        ((readNext i st.secs).1 = none ∧ st2 = ⟨st.secs, hh⟩)) := by
  rcases hp : popMin cmp st.heap with _ | ⟨⟨i0, r0⟩, hh⟩ <;> simp only [istep, hp] at h
  · exact Option.noConfusion h
  · rcases hr : readNext i0 st.secs with ⟨o, secs2⟩
    have h1 : (readNext i0 st.secs).1 = o := by rw [hr]
    have h2 : (readNext i0 st.secs).2 = secs2 := by rw [hr]
    cases o with
    | none =>
      simp only [hr, Option.some.injEq, Prod.mk.injEq] at h
      obtain ⟨⟨rfl, rfl⟩, rfl⟩ := h
      refine ⟨hh, rfl, Or.inr ⟨h1, ?_⟩⟩
      rw [← h2, readNext_none_snd i0 st.secs h1]
    | some r2 =>
      simp only [hr, Option.some.injEq, Prod.mk.injEq] at h
      obtain ⟨⟨rfl, rfl⟩, rfl⟩ := h
      exact ⟨hh, rfl, Or.inl ⟨r2, h1, by rw [h2]⟩⟩

theorem istep_msize {st : MergeState} {e : Nat × Rec} {st2 : MergeState}
    (h : istep cmp st = some (e, st2)) : st2.msize + 1 = st.msize := by
  obtain ⟨i, r⟩ := e
  obtain ⟨hh, hp, hcase⟩ := istep_shape cmp h
  have hlen := popMin_length cmp hp
  rcases hcase with ⟨r2, h1, rfl⟩ | ⟨h1, rfl⟩
  · have hsum := readNext_some_sum i st.secs r2 h1
    simp only [MergeState.msize, List.length_cons] at *
    omega
  · simp only [MergeState.msize] at *
    omega

theorem streamFuel_eq_streamT : ∀ (fu : Nat) (st : MergeState), st.msize ≤ fu →
    streamFuel cmp fu st = streamT cmp st := by
  have key : ∀ (fu fu2 : Nat) (st : MergeState), st.msize ≤ fu → st.msize ≤ fu2 →
      streamFuel cmp fu st = streamFuel cmp fu2 st := by
    intro fu
    induction fu with
    | zero =>
      intro fu2 st h0 _
      have hheap : st.heap = [] := by
        simp only [MergeState.msize] at h0
        exact List.eq_nil_of_length_eq_zero (by omega)
      have hnone : istep cmp st = none := (istep_eq_none_iff cmp).mpr hheap
      cases fu2 with
      | zero => rfl
      | succ m => simp [streamFuel, hnone]
    | succ n ih =>
      intro fu2 st hn hm
      cases fu2 with
      | zero =>
        have hheap : st.heap = [] := by
          simp only [MergeState.msize] at hm
          exact List.eq_nil_of_length_eq_zero (by omega)
        have hnone : istep cmp st = none := (istep_eq_none_iff cmp).mpr hheap
        simp [streamFuel, hnone]
      | succ m =>
        rcases hi : istep cmp st with _ | ⟨e, st2⟩ <;> simp only [streamFuel, hi]
        have hms := istep_msize cmp hi
        rw [ih m st2 (by omega) (by omega)]
  intro fu st h
  exact key fu st.msize st h (Nat.le_refl _)

theorem streamT_eq (st : MergeState) :
    streamT cmp st =
      match istep cmp st with
      | none => []
      | some (e, st2) => e :: streamT cmp st2 := by
  rcases hi : istep cmp st with _ | ⟨e, st2⟩ <;> simp only [hi]
  · rw [streamT]
    cases hms : st.msize with
    | zero => rfl
    | succ k => simp [streamFuel, hi]
  · have hms := istep_msize cmp hi
    rw [streamT, ← hms]
    simp only [streamFuel, hi]
    rw [streamFuel_eq_streamT cmp st2.msize st2 (Nat.le_refl _)]

theorem istep_covers {st : MergeState} {i : Nat} {r : Rec} {st2 : MergeState}
    (hc : Covers st) (h : istep cmp st = some ((i, r), st2)) : Covers st2 := by
  obtain ⟨hh, hp, hcase⟩ := istep_shape cmp h
  have hperm := popMin_perm cmp hp
  rcases hcase with ⟨r2, h1, rfl⟩ | ⟨h1, rfl⟩
  · intro j hj
    simp only at hj ⊢
    rw [readNext_snd i st.secs j] at hj
    by_cases hji : j = i
    · exact ⟨r2, by rw [hji]; exact List.mem_cons_self _ _⟩
    · rw [if_neg hji] at hj
      obtain ⟨x, hx⟩ := hc j hj
      have hx2 := hperm.mem_iff.mp hx
      rcases List.mem_cons.mp hx2 with hcontra | hx3
      · cases hcontra; exact absurd rfl hji
      · exact ⟨x, List.mem_cons_of_mem _ hx3⟩
  · intro j hj
    simp only at hj ⊢
    obtain ⟨x, hx⟩ := hc j hj
    have hx2 := hperm.mem_iff.mp hx
    rcases List.mem_cons.mp hx2 with hcontra | hx3
    · exfalso
      cases hcontra
      rw [readNext_fst] at h1
      rw [List.head?_eq_none_iff.mp h1] at hj
      exact hj rfl
    · exact ⟨x, hx3⟩

theorem taggedOf_eq_nil_of_covers {st : MergeState} (hc : Covers st)
    (hheap : st.heap = []) : taggedOf st.secs = [] := by
  rw [List.eq_nil_iff_forall_not_mem]
  intro e he
  obtain ⟨j, hj, hmem⟩ := (mem_taggedFrom 0 st.secs e).mp he
  have hne : secAt st.secs j ≠ [] := fun hnil => by rw [hnil] at hmem; cases hmem
  obtain ⟨x, hx⟩ := hc j hne
  rw [hheap] at hx
  cases hx

theorem streamFuel_perm : ∀ (fu : Nat) (st : MergeState), st.msize ≤ fu → Covers st →
    (streamFuel cmp fu st).Perm (st.heap ++ taggedOf st.secs) := by
  intro fu
  induction fu with
  | zero =>
    intro st h0 hc
    have hheap : st.heap = [] := by
      simp only [MergeState.msize] at h0
      exact List.eq_nil_of_length_eq_zero (by omega)
    simp [streamFuel, hheap, taggedOf_eq_nil_of_covers hc hheap]
  | succ n ih =>
    intro st hn hc
    rcases hi : istep cmp st with _ | ⟨⟨i, r⟩, st2⟩ <;> simp only [streamFuel, hi]
    · have hheap := (istep_eq_none_iff cmp).mp hi
      simp [hheap, taggedOf_eq_nil_of_covers hc hheap]
    · have hms := istep_msize cmp hi
      have hcov2 := istep_covers cmp hc hi
      have hind := ih st2 (by omega) hcov2
      obtain ⟨hh, hp, hcase⟩ := istep_shape cmp hi
      have hperm := popMin_perm cmp hp
      rcases hcase with ⟨r2, h1, rfl⟩ | ⟨h1, rfl⟩
      · have htag := taggedFrom_readNext_some i st.secs r2 h1 0
        rw [Nat.zero_add] at htag
        refine List.Perm.trans (List.Perm.cons _ hind) ?_
        refine List.Perm.symm ?_
        refine (List.Perm.append hperm htag).trans ?_
        simp only [List.cons_append]
        exact List.Perm.cons _ List.perm_middle
      · refine List.Perm.trans (List.Perm.cons _ hind) ?_
        refine List.Perm.symm ?_
        refine (hperm.append_right _).trans ?_
        simp [List.cons_append]

theorem streamT_perm (st : MergeState) (hc : Covers st) :
    (streamT cmp st).Perm (st.heap ++ taggedOf st.secs) :=
  streamFuel_perm cmp st.msize st (Nat.le_refl _) hc

/-! ### Invariant preservation and sortedness of the merged stream -/

theorem hle_same_idx [Batteries.TransCmp cmp] {i : Nat} {a b : Rec}
    (h : KeyLe cmp a b) : HLe cmp (i, a) (i, b) := by
  rw [HLe, heapLE_iff]
  rcases hc : cmp a.key b.key with _ | _ | _
  · exact Or.inl rfl
  · exact Or.inr ⟨rfl, Nat.le_refl _⟩
  · exact absurd hc h

theorem istep_minv [Batteries.TransCmp cmp] {st : MergeState} {i : Nat} {r : Rec}
    {st2 : MergeState} (hinv : MInv cmp st) (h : istep cmp st = some ((i, r), st2)) :
    MInv cmp st2 ∧ ∀ x ∈ st2.heap ++ taggedOf st2.secs, HLe cmp (i, r) x := by
  obtain ⟨hh, hp, hcase⟩ := istep_shape cmp h
  have hperm := popMin_perm cmp hp
  have hmin := popMin_min cmp hp
  have hmemheap : ∀ x ∈ hh, x ∈ st.heap := fun x hx =>
    hperm.mem_iff.mpr (List.mem_cons_of_mem _ hx)
  have hself : (i, r) ∈ st.heap := hperm.mem_iff.mpr (List.mem_cons_self _ _)
  have hpw : ((i, r) :: hh).Pairwise fun a b => a.1 ≠ b.1 :=
    (hperm.pairwise_iff fun hab => hab.symm).mp hinv.uniq
  have hpwc := List.pairwise_cons.mp hpw
  -- bound on a section reached through the old heap, transported to HLe
  have htag : ∀ j : Nat, ∀ xr ∈ secAt st.secs j, HLe cmp (i, r) (j, xr) := by
    intro j xr hxr
    have hne : secAt st.secs j ≠ [] := fun hnil => by rw [hnil] at hxr; cases hxr
    obtain ⟨s, hs⟩ := hinv.covers j hne
    exact hle_trans cmp (hmin _ hs) (hle_same_idx cmp (hinv.bound _ hs xr hxr))
  rcases hcase with ⟨r2, h1, rfl⟩ | ⟨h1, rfl⟩
  · -- refill case: section i contributed its next record r2
    rw [readNext_fst] at h1
    rcases hsec : secAt st.secs i with _ | ⟨b, tl⟩
    · rw [hsec] at h1; cases h1
    rw [hsec] at h1
    have hbr2 : b = r2 := by simpa using h1
    subst hbr2
    have hsortedi := hinv.sorted i
    rw [hsec] at hsortedi
    have hsortedi' := List.pairwise_cons.mp hsortedi
    constructor
    · constructor
      · exact List.Pairwise.cons (fun y hy => hpwc.1 y hy) hpwc.2
      · intro e he x hx
        simp only at hx
        rw [readNext_snd i st.secs e.1] at hx
        rcases List.mem_cons.mp he with rfl | he2
        · simp only [if_pos rfl, hsec, List.tail_cons] at hx
          exact hsortedi'.1 x hx
        · have hne : e.1 ≠ i := fun hei => (hpwc.1 e he2) hei.symm
          rw [if_neg hne] at hx
          exact hinv.bound e (hmemheap e he2) x hx
      · intro j
        simp only
        rw [readNext_snd i st.secs j]
        by_cases hji : j = i
        · rw [if_pos hji, hsec, List.tail_cons]
          exact hsortedi'.2
        · rw [if_neg hji]
          exact hinv.sorted j
      · exact istep_covers cmp hinv.covers h
    · intro x hx
      rcases List.mem_append.mp hx with hx1 | hx2
      · rcases List.mem_cons.mp hx1 with rfl | hx3
        · exact hle_same_idx cmp (hinv.bound _ hself b (by rw [hsec]; exact List.mem_cons_self _ _))
        · exact hmin x (hmemheap x hx3)
      · obtain ⟨j, hj, hmem⟩ := (mem_taggedFrom 0 _ x).mp hx2
        rw [readNext_snd i st.secs j] at hmem
        have hxeq : x = (j, x.2) := by
          obtain ⟨x1, x2⟩ := x; simp at hj; simp [hj]
        by_cases hji : j = i
        · rw [if_pos hji, hsec, List.tail_cons] at hmem
          rw [hxeq, hji]
          exact hle_same_idx cmp
            (hinv.bound _ hself x.2 (by rw [hsec]; exact List.mem_cons_of_mem _ hmem))
        · rw [if_neg hji] at hmem
          rw [hxeq]
          exact htag j x.2 hmem
  · -- exhausted case: section i is empty
    constructor
    · constructor
      · exact hpwc.2
      · intro e he x hx
        exact hinv.bound e (hmemheap e he) x hx
      · intro j
        exact hinv.sorted j
      · exact istep_covers cmp hinv.covers h
    · intro x hx
      rcases List.mem_append.mp hx with hx1 | hx2
      · exact hmin x (hmemheap x hx1)
      · obtain ⟨j, hj, hmem⟩ := (mem_taggedFrom 0 _ x).mp hx2
        have hxeq : x = (j, x.2) := by
          obtain ⟨x1, x2⟩ := x; simp at hj; simp [hj]
        rw [hxeq]
        exact htag j x.2 hmem

theorem streamFuel_sorted [Batteries.TransCmp cmp] : ∀ (fu : Nat) (st : MergeState),
    st.msize ≤ fu → MInv cmp st → (streamFuel cmp fu st).Pairwise (HLe cmp) := by
  intro fu
  induction fu with
  | zero => intro st _ _; exact List.Pairwise.nil
  | succ n ih =>
    intro st hn hinv
    rcases hi : istep cmp st with _ | ⟨⟨i, r⟩, st2⟩ <;> simp only [streamFuel, hi]
    · exact List.Pairwise.nil
    · have hms := istep_msize cmp hi
      obtain ⟨hinv2, hmin⟩ := istep_minv cmp hinv hi
      refine List.Pairwise.cons ?_ (ih st2 (by omega) hinv2)
      intro y hy
      have hperm := streamFuel_perm cmp n st2 (by omega) hinv2.covers
      exact hmin y (hperm.mem_iff.mp hy)

theorem streamT_sorted [Batteries.TransCmp cmp] (st : MergeState)
    (hinv : MInv cmp st) : (streamT cmp st).Pairwise (HLe cmp) :=
  streamFuel_sorted cmp st.msize st (Nat.le_refl _) hinv

/-! ### The initial merge state -/

theorem secAt_map_tail : ∀ (secs : List (List Rec)) (i : Nat),
    secAt (secs.map List.tail) i = (secAt secs i).tail := by
  intro secs
  induction secs with
  | nil => intro i; cases i <;> rfl
  | cons s rest ih =>
    intro i
    cases i with
    | zero => rfl
    | succ n => simpa [secAt] using ih n

theorem initMerge_covers (secs : List (List Rec)) : Covers (initMerge secs) := by
  intro i hne
  have hne2 : (secAt secs i).tail ≠ [] := by
    rw [← secAt_map_tail]; exact hne
  rcases hsec : secAt secs i with _ | ⟨b, tl⟩
  · rw [hsec] at hne2; simp at hne2
  · refine ⟨b, (mem_headsFrom 0 secs (i, b)).mpr ⟨i, by omega, ?_⟩⟩
    rw [hsec]; rfl

theorem initMerge_minv [Batteries.TransCmp cmp] (secs : List (List Rec))
    (hs : ∀ i, (secAt secs i).Pairwise (KeyLe cmp)) : MInv cmp (initMerge secs) := by
  constructor
  · exact List.Pairwise.imp (fun hab => Nat.ne_of_lt hab) (headsFrom_pairwise_lt 0 secs)
  · intro e he x hx
    obtain ⟨j, hj, hhd⟩ := (mem_headsFrom 0 secs e).mp he
    have hj' : e.1 = j := by omega
    simp only [initMerge] at hx
    rw [secAt_map_tail, hj'] at hx
    rcases hsec : secAt secs j with _ | ⟨b, tl⟩
    · rw [hsec] at hhd; cases hhd
    · rw [hsec] at hhd hx
      have hb : b = e.2 := by simpa using hhd
      subst hb
      simp only [List.tail_cons] at hx
      have := hs j
      rw [hsec] at this
      exact (List.pairwise_cons.mp this).1 x hx
  · intro i
    simp only [initMerge]
    rw [secAt_map_tail]
    exact (hs i).sublist (List.tail_sublist _)
  · exact initMerge_covers secs

theorem streamT_initMerge_perm (secs : List (List Rec)) :
    (streamT cmp (initMerge secs)).Perm (taggedOf secs) :=
  (streamT_perm cmp (initMerge secs) (initMerge_covers secs)).trans
    (headsFrom_tagged_perm 0 secs)

theorem streamRecs_initMerge_perm (secs : List (List Rec)) :
    (streamRecs cmp (initMerge secs)).Perm secs.flatten := by
  have h := (streamT_initMerge_perm cmp secs).map Prod.snd
  rw [streamRecs]
  rw [taggedOf, taggedFrom_map_snd 0 secs] at h
  exact h

theorem streamRecs_sorted [Batteries.TransCmp cmp] (secs : List (List Rec))
    (hs : ∀ i, (secAt secs i).Pairwise (KeyLe cmp)) :
    (streamRecs cmp (initMerge secs)).Pairwise (KeyLe cmp) := by
  rw [streamRecs]
  refine List.Pairwise.map _ ?_ (streamT_sorted cmp _ (initMerge_minv cmp secs hs))
  intro a b hab
  exact HLe.keyLe cmp hab

/-! ### The Next layer computes the adjacent dedup of the merged stream -/

theorem nextLoop_dedup : ∀ (fu : Nat) (ent : Rec) (st : MergeState), st.msize ≤ fu →
    ∀ cur la st2, nextLoop cmp deq fu ent st = (cur, la, st2) →
      (la = none → dedupAdj deq (ent :: streamRecs cmp st) = [cur]) ∧
      (∀ j r2, la = some (j, r2) →
        dedupAdj deq (ent :: streamRecs cmp st) =
          cur :: dedupAdj deq (r2 :: streamRecs cmp st2) ∧ st2.msize < st.msize) := by
  intro fu
  induction fu with
  | zero =>
    intro ent st hfu cur la st2 hres
    have hheap : st.heap = [] := by
      simp only [MergeState.msize] at hfu
      exact List.eq_nil_of_length_eq_zero (by omega)
    have hnone : istep cmp st = none := (istep_eq_none_iff cmp).mpr hheap
    have hstream : streamRecs cmp st = [] := by
      rw [streamRecs, streamT_eq, hnone]; rfl
    simp only [nextLoop, Prod.mk.injEq] at hres
    obtain ⟨rfl, rfl, rfl⟩ := hres
    refine ⟨fun _ => by rw [hstream]; rfl, fun j r2 hla => by cases hla⟩
  | succ n ih =>
    intro ent st hfu cur la st2 hres
    rcases hi : istep cmp st with _ | ⟨⟨i, rr⟩, stm⟩ <;> simp only [nextLoop, hi] at hres
    · have hstream : streamRecs cmp st = [] := by
        rw [streamRecs, streamT_eq, hi]; rfl
      simp only [Prod.mk.injEq] at hres
      obtain ⟨rfl, rfl, rfl⟩ := hres
      refine ⟨fun _ => by rw [hstream]; rfl, fun j r2 hla => by cases hla⟩
    · have hms := istep_msize cmp hi
      have hstream : streamRecs cmp st = rr :: streamRecs cmp stm := by
        rw [streamRecs, streamT_eq, hi]; rfl
      rw [hstream]
      by_cases hdab : deq ent.key rr.key = true
      · rw [if_pos hdab] at hres
        obtain ⟨h1, h2⟩ := ih rr stm (by omega) cur la st2 hres
        constructor
        · intro hla
          rw [show dedupAdj deq (ent :: rr :: streamRecs cmp stm) =
              dedupAdj deq (rr :: streamRecs cmp stm) by simp [dedupAdj, hdab]]
          exact h1 hla
        · intro j r2 hla
          obtain ⟨heq, hlt⟩ := h2 j r2 hla
          refine ⟨?_, by omega⟩
          rw [show dedupAdj deq (ent :: rr :: streamRecs cmp stm) =
              dedupAdj deq (rr :: streamRecs cmp stm) by simp [dedupAdj, hdab]]
          exact heq
      · rw [if_neg hdab] at hres
        simp only [Prod.mk.injEq] at hres
        obtain ⟨rfl, rfl, rfl⟩ := hres
        constructor
        · intro hla; cases hla
        · intro j r2 hla
          simp only [Option.some.injEq, Prod.mk.injEq] at hla
          obtain ⟨rfl, rfl⟩ := hla
          refine ⟨?_, by omega⟩
          simp [dedupAdj, hdab]

theorem drainFuel_eq_dedupAdj : ∀ (n j : Nat) (ent : Rec) (st : MergeState),
    st.msize < n →
    drainFuel cmp deq n (some (j, ent)) st = dedupAdj deq (ent :: streamRecs cmp st) := by
  intro n
  induction n with
  | zero => intro j ent st h; omega
  | succ n ih =>
    intro j ent st hn
    simp only [drainFuel]
    rcases hres : nextLoop cmp deq st.msize ent st with ⟨cur, la, st2⟩
    obtain ⟨h1, h2⟩ := nextLoop_dedup cmp deq st.msize ent st (Nat.le_refl _) cur la st2 hres
    cases la with
    | none =>
      rw [h1 rfl]
      cases n <;> simp [drainFuel]
    | some e2 =>
      obtain ⟨j2, r2⟩ := e2
      obtain ⟨heq, hlt⟩ := h2 j2 r2 rfl
      rw [heq, ih j2 r2 st2 (by omega)]

theorem iterOut_eq_dedupAdj (secs : List (List Rec)) :
    iterOut cmp deq secs = dedupAdj deq (streamRecs cmp (initMerge secs)) := by
  rw [iterOut]
  rcases hi : istep cmp (initMerge secs) with _ | ⟨⟨i, r⟩, st2⟩ <;> simp only [hi]
  · rw [streamRecs, streamT_eq, hi]
    rfl
  · have hstream : streamRecs cmp (initMerge secs) = r :: streamRecs cmp st2 := by
      rw [streamRecs, streamT_eq, hi]; rfl
    rw [hstream]
    exact drainFuel_eq_dedupAdj cmp deq (st2.msize + 1) i r st2 (by omega)

/-! ### Properties of the adjacent dedup scan -/

theorem dedupAdj_sublist : ∀ l : List Rec, (dedupAdj deq l).Sublist l := by
  intro l
  induction l with
  | nil => exact List.Sublist.refl _
  | cons a t ih =>
    cases t with
    | nil => exact List.Sublist.refl _
    | cons b t2 =>
      rw [dedupAdj]
      by_cases hd : deq a.key b.key = true
      · rw [if_pos hd]
        exact ih.cons a
      · rw [if_neg hd]
        exact ih.cons₂ a

theorem dedupAdj_id_of_chain : ∀ l : List Rec,
    l.Chain' (fun a b => deq a.key b.key = false) → dedupAdj deq l = l := by
  intro l
  induction l with
  | nil => intro _; rfl
  | cons a t ih =>
    cases t with
    | nil => intro _; rfl
    | cons b t2 =>
      intro hc
      obtain ⟨hab, hc2⟩ := List.chain'_cons.mp hc
      rw [dedupAdj, if_neg (by simp [hab]), ih hc2]

theorem dedupAdj_head [Batteries.TransCmp cmp]
    (hdeq : ∀ a b : Bytes, deq a b = true ↔ cmp a b = Ordering.eq) :
    ∀ (b : Rec) (t : List Rec),
      ∃ c t2, dedupAdj deq (b :: t) = c :: t2 ∧ cmp b.key c.key = Ordering.eq := by
  intro b t
  induction t generalizing b with
  | nil => exact ⟨b, [], rfl, Batteries.OrientedCmp.cmp_refl⟩
  | cons b2 t2 ih =>
    by_cases hd : deq b.key b2.key = true
    · obtain ⟨c, t3, hc, hcmp⟩ := ih b2
      refine ⟨c, t3, ?_, ?_⟩
      · rw [dedupAdj, if_pos hd]; exact hc
      · rw [Batteries.TransCmp.cmp_congr_left ((hdeq _ _).mp hd)]
        exact hcmp
    · exact ⟨b, dedupAdj deq (b2 :: t2), by rw [dedupAdj, if_neg hd],
        Batteries.OrientedCmp.cmp_refl⟩

theorem dedupAdj_chain_ne [Batteries.TransCmp cmp]
    (hdeq : ∀ a b : Bytes, deq a b = true ↔ cmp a b = Ordering.eq) :
    ∀ l : List Rec, l.Pairwise (KeyLe cmp) →
      (dedupAdj deq l).Chain' (fun a b => deq a.key b.key = false) := by
  intro l
  induction l with
  | nil => intro _; exact List.chain'_nil
  | cons a t ih =>
    cases t with
    | nil => intro _; exact List.chain'_singleton _
    | cons b t2 =>
      intro hp
      have hp2 := (List.pairwise_cons.mp hp).2
      have hrel := (List.pairwise_cons.mp hp).1
      rw [dedupAdj]
      by_cases hd : deq a.key b.key = true
      · rw [if_pos hd]
        exact ih hp2
      · rw [if_neg hd]
        obtain ⟨c, t3, hc, hcmp⟩ := dedupAdj_head cmp deq hdeq b t2
        rw [hc]
        refine List.Chain'.cons ?_ (hc ▸ ih hp2)
        -- cmp a b = lt since sorted and not equal
        have hab_le : KeyLe cmp a b := hrel b (List.mem_cons_self _ _)
        have hab_ne : cmp a.key b.key ≠ Ordering.eq := fun he => hd ((hdeq _ _).mpr he)
        have hab_lt : cmp a.key b.key = Ordering.lt := by
          rcases hx : cmp a.key b.key with _ | _ | _
          · rfl
          · exact absurd hx hab_ne
          · exact absurd hx hab_le
        have hac : cmp a.key c.key = Ordering.lt := by
          rw [← Batteries.TransCmp.cmp_congr_right hcmp]
          exact hab_lt
        rw [← Bool.not_eq_true]
        intro hdac
        rw [(hdeq _ _).mp hdac] at hac
        cases hac

/-- Elements with keys in one class under the predicate are kept exactly once
by the dedup scan of a sorted list: the last occurrence survives. -/
theorem dedupAdj_filter_class [Batteries.TransCmp cmp]
    (hdeq : ∀ a b : Bytes, deq a b = true ↔ cmp a b = Ordering.eq) :
    ∀ l : List Rec, l.Pairwise (KeyLe cmp) → ∀ k : Bytes,
      (dedupAdj deq l).filter (fun r => deq r.key k) =
        ((l.filter fun r => deq r.key k).getLast?).toList := by
  intro l
  induction l with
  | nil => intro _ k; rfl
  | cons a t ih =>
    cases t with
    | nil =>
      intro _ k
      by_cases h : deq a.key k = true <;>
        simp [dedupAdj, List.filter, h]
    | cons b t2 =>
      intro hp k
      have hp2 := (List.pairwise_cons.mp hp).2
      have hrel := (List.pairwise_cons.mp hp).1
      rw [dedupAdj]
      by_cases hd : deq a.key b.key = true
      · rw [if_pos hd]
        by_cases hak : deq a.key k = true
        · -- b is in the same class, so dropping a keeps the last element
          have hbk : deq b.key k = true := by
            rw [hdeq] at hd hak ⊢
            rw [← Batteries.TransCmp.cmp_congr_left hd]
            exact hak
          rw [ih hp2 k]
          have hfb : (b :: t2).filter (fun r => deq r.key k) =
              b :: t2.filter (fun r => deq r.key k) := by
            simp [List.filter_cons, hbk]
          rw [show (a :: b :: t2).filter (fun r => deq r.key k) =
              a :: (b :: t2).filter (fun r => deq r.key k) by
            simp [List.filter_cons, hak]]
          rw [hfb, List.getLast?_cons_cons]
        · rw [ih hp2 k]
          have hak2 : deq a.key k = false := by simpa using hak
          rw [show (a :: b :: t2).filter (fun r => deq r.key k) =
              (b :: t2).filter (fun r => deq r.key k) by
            simp [List.filter_cons, hak2]]
      · rw [if_neg hd]
        by_cases hak : deq a.key k = true
        · -- nothing after a is in the class of a
          have hnone : ∀ z ∈ b :: t2, deq z.key k = false := by
            intro z hz
            have hab_ne : cmp a.key b.key ≠ Ordering.eq := fun he => hd ((hdeq _ _).mpr he)
            have hab_le : KeyLe cmp a b := hrel b (List.mem_cons_self _ _)
            have hab_lt : cmp a.key b.key = Ordering.lt := by
              rcases hx : cmp a.key b.key with _ | _ | _
              · rfl
              · exact absurd hx hab_ne
              · exact absurd hx hab_le
            have haz_lt : cmp a.key z.key = Ordering.lt := by
              rcases List.mem_cons.mp hz with rfl | hz2
              · exact hab_lt
              · have hbz : KeyLe cmp b z := (List.pairwise_cons.mp hp2).1 z hz2
                exact Batteries.TransCmp.lt_le_trans hab_lt hbz
            rw [← Bool.not_eq_true]
            intro hzk
            have : cmp a.key z.key = Ordering.eq := by
              rw [Batteries.TransCmp.cmp_congr_right ((hdeq _ _).mp hzk)]
              exact (hdeq _ _).mp hak
            rw [this] at haz_lt
            cases haz_lt
          have hfnil : (b :: t2).filter (fun r => deq r.key k) = [] := by
            rw [List.filter_eq_nil_iff]
            intro z hz
            simp [hnone z hz]
          have hfnil2 : (dedupAdj deq (b :: t2)).filter (fun r => deq r.key k) = [] := by
            have hsub := (dedupAdj_sublist deq (b :: t2)).filter
              (fun r => deq r.key k)
            rw [hfnil] at hsub
            exact List.sublist_nil.mp hsub
          rw [show (a :: dedupAdj deq (b :: t2)).filter (fun r => deq r.key k) =
              a :: (dedupAdj deq (b :: t2)).filter (fun r => deq r.key k) by
            simp [List.filter_cons, hak]]
          rw [show (a :: b :: t2).filter (fun r => deq r.key k) =
              a :: (b :: t2).filter (fun r => deq r.key k) by
            simp [List.filter_cons, hak]]
          rw [hfnil2, hfnil]
          rfl
        · have hak2 : deq a.key k = false := by simpa using hak
          rw [show (a :: dedupAdj deq (b :: t2)).filter (fun r => deq r.key k) =
              (dedupAdj deq (b :: t2)).filter (fun r => deq r.key k) by
            simp [List.filter_cons, hak2]]
          rw [show (a :: b :: t2).filter (fun r => deq r.key k) =
              (b :: t2).filter (fun r => deq r.key k) by
            simp [List.filter_cons, hak2]]
          exact ih hp2 k

/-! ### Sorting the run buffer -/

theorem insertRec_perm (r : Rec) : ∀ l : List Rec, (insertRec cmp r l).Perm (r :: l) := by
  intro l
  induction l with
  | nil => exact List.Perm.refl _
  | cons x xs ih =>
    rw [insertRec]
    by_cases hc : cmp x.key r.key = Ordering.lt
    · rw [if_pos hc]
      exact (ih.cons x).trans (List.Perm.swap r x xs)
    · rw [if_neg hc]

theorem sortRecs_perm (l : List Rec) : (sortRecs cmp l).Perm l := by
  induction l with
  | nil => exact List.Perm.refl _
  | cons a t ih =>
    have hstep : sortRecs cmp (a :: t) = insertRec cmp a (sortRecs cmp t) := rfl
    rw [hstep]
    exact (insertRec_perm cmp a _).trans (ih.cons a)

theorem insertRec_sorted [Batteries.TransCmp cmp] (r : Rec) :
    ∀ l : List Rec, l.Pairwise (KeyLe cmp) →
      (insertRec cmp r l).Pairwise (KeyLe cmp) := by
  intro l
  induction l with
  | nil => intro _; exact List.pairwise_singleton _ _
  | cons x xs ih =>
    intro hp
    obtain ⟨hx, hxs⟩ := List.pairwise_cons.mp hp
    rw [insertRec]
    by_cases hc : cmp x.key r.key = Ordering.lt
    · rw [if_pos hc]
      refine List.pairwise_cons.mpr ⟨?_, ih hxs⟩
      intro y hy
      have hy2 := (insertRec_perm cmp r xs).mem_iff.mp hy
      rcases List.mem_cons.mp hy2 with rfl | hy3
      · intro hgt
        rw [hc] at hgt
        cases hgt
      · exact hx y hy3
    · rw [if_neg hc]
      have hrx : KeyLe cmp r x := fun hgt =>
        hc (Batteries.OrientedCmp.cmp_eq_gt.mp hgt)
      refine List.pairwise_cons.mpr ⟨?_, hp⟩
      intro y hy
      rcases List.mem_cons.mp hy with rfl | hy2
      · exact hrx
      · exact Batteries.TransCmp.le_trans hrx (hx y hy2)

theorem sortRecs_sorted [Batteries.TransCmp cmp] (l : List Rec) :
    (sortRecs cmp l).Pairwise (KeyLe cmp) := by
  induction l with
  | nil => exact List.Pairwise.nil
  | cons a t ih => exact insertRec_sorted cmp a _ ih

theorem insertRec_filter_pos [Batteries.TransCmp cmp] {p : Rec → Bool}
    (hcompat : ∀ x y : Rec, p x = true → p y = true →
      cmp x.key y.key = Ordering.eq)
    (r : Rec) (hr : p r = true) :
    ∀ l : List Rec, (insertRec cmp r l).filter p = r :: l.filter p := by
  intro l
  induction l with
  | nil => simp [insertRec, List.filter_cons, hr]
  | cons x xs ih =>
    rw [insertRec]
    by_cases hc : cmp x.key r.key = Ordering.lt
    · rw [if_pos hc]
      have hpx : p x = false := by
        rw [← Bool.not_eq_true]
        intro hpx
        rw [hcompat x r hpx hr] at hc
        cases hc
      simp [List.filter_cons, hpx, ih]
    · rw [if_neg hc]
      simp [List.filter_cons, hr]

theorem insertRec_filter_neg {p : Rec → Bool} (r : Rec) (hr : p r = false) :
    ∀ l : List Rec, (insertRec cmp r l).filter p = l.filter p := by
  intro l
  induction l with
  | nil => simp [insertRec, List.filter_cons, hr]
  | cons x xs ih =>
    rw [insertRec]
    by_cases hc : cmp x.key r.key = Ordering.lt
    · rw [if_pos hc]
      simp [List.filter_cons, ih]
    · rw [if_neg hc]
      simp [List.filter_cons, hr]

theorem sortRecs_filter_class [Batteries.TransCmp cmp]
    (hdeq : ∀ a b : Bytes, deq a b = true ↔ cmp a b = Ordering.eq)
    (l : List Rec) (k : Bytes) :
    (sortRecs cmp l).filter (fun r => deq r.key k) =
      l.filter (fun r => deq r.key k) := by
  have hcompat : ∀ x y : Rec, deq x.key k = true → deq y.key k = true →
      cmp x.key y.key = Ordering.eq := by
    intro x y hx hy
    rw [Batteries.TransCmp.cmp_congr_right ((hdeq _ _).mp hy)]
    exact (hdeq _ _).mp hx
  induction l with
  | nil => rfl
  | cons a t ih =>
    show (insertRec cmp a (sortRecs cmp t)).filter _ = _
    by_cases ha : deq a.key k = true
    · rw [insertRec_filter_pos cmp hcompat a ha, ih]
      simp [List.filter_cons, ha]
    · have ha2 : deq a.key k = false := by simpa using ha
      rw [insertRec_filter_neg cmp a ha2, ih]
      simp [List.filter_cons, ha2]

/-! ### Flushed sections -/

theorem flushSection_sorted [Batteries.TransCmp cmp] (l : List Rec) :
    (flushSection cmp deq l).Pairwise (KeyLe cmp) :=
  (sortRecs_sorted cmp l).sublist (dedupAdj_sublist deq (sortRecs cmp l))

theorem flushSection_chain_ne [Batteries.TransCmp cmp]
    (hdeq : ∀ a b : Bytes, deq a b = true ↔ cmp a b = Ordering.eq) (l : List Rec) :
    (flushSection cmp deq l).Chain' (fun a b => deq a.key b.key = false) :=
  dedupAdj_chain_ne cmp deq hdeq (sortRecs cmp l) (sortRecs_sorted cmp l)

theorem flushSection_filter_class [Batteries.TransCmp cmp]
    (hdeq : ∀ a b : Bytes, deq a b = true ↔ cmp a b = Ordering.eq)
    (l : List Rec) (k : Bytes) :
    (flushSection cmp deq l).filter (fun r => deq r.key k) =
      ((l.filter fun r => deq r.key k).getLast?).toList := by
  rw [flushSection, dedupAdj_filter_class cmp deq hdeq (sortRecs cmp l)
    (sortRecs_sorted cmp l) k, sortRecs_filter_class cmp deq hdeq l k]

/-! ### Uniqueness of sorted lists up to permutation -/

theorem sorted_perm_unique {α : Type} {r : α → α → Prop} :
    ∀ (l1 l2 : List α), l1.Perm l2 → l1.Pairwise r → l2.Pairwise r →
      (∀ a ∈ l1, ∀ b ∈ l1, r a b → r b a → a = b) → l1 = l2 := by
  intro l1
  induction l1 with
  | nil =>
    intro l2 hp _ _ _
    exact (hp.symm.eq_nil).symm
  | cons a t1 ih =>
    intro l2 hp hp1 hp2 hanti
    cases l2 with
    | nil => cases hp.eq_nil
    | cons b t2 =>
      have hab : a = b := by
        by_cases h : a = b
        · exact h
        · have hbmem : b ∈ a :: t1 := hp.symm.subset (List.mem_cons_self _ _)
          have hamem : a ∈ b :: t2 := hp.subset (List.mem_cons_self _ _)
          have hbmem2 : b ∈ t1 := by
            rcases List.mem_cons.mp hbmem with h1 | h1
            · exact absurd h1.symm h
            · exact h1
          have hamem2 : a ∈ t2 := by
            rcases List.mem_cons.mp hamem with h1 | h1
            · exact absurd h1 h
            · exact h1
          have hr1 : r a b := (List.pairwise_cons.mp hp1).1 b hbmem2
          have hr2 : r b a := (List.pairwise_cons.mp hp2).1 a hamem2
          exact hanti a (List.mem_cons_self _ _) b hbmem hr1 hr2
      subst hab
      have hp' : t1.Perm t2 := hp.cons_inv
      rw [ih t2 hp' (List.pairwise_cons.mp hp1).2 (List.pairwise_cons.mp hp2).2
        fun x hx y hy => hanti x (List.mem_cons_of_mem _ hx) y (List.mem_cons_of_mem _ hy)]

/-! ### Small list helpers -/

theorem chain'_of_forall {α : Type} {R : α → α → Prop} (h : ∀ a b, R a b) :
    ∀ l : List α, l.Chain' R := by
  intro l
  induction l with
  | nil => exact List.chain'_nil
  | cons a t ih =>
    cases t with
    | nil => exact List.chain'_singleton _
    | cons b t2 => exact List.chain'_cons.mpr ⟨h a b, ih⟩

theorem flatten_map_perm {f : List Rec → List Rec} (h : ∀ b, (f b).Perm b) :
    ∀ bufs : List (List Rec), ((bufs.map f).flatten).Perm bufs.flatten := by
  intro bufs
  induction bufs with
  | nil => exact List.Perm.refl _
  | cons b rest ih =>
    simp only [List.map_cons, List.flatten_cons]
    exact (h b).append ih

theorem filter_flatten (p : Rec → Bool) : ∀ l : List (List Rec),
    l.flatten.filter p = (l.map fun s => s.filter p).flatten := by
  intro l
  induction l with
  | nil => rfl
  | cons s rest ih => simp [List.filter_append, ih]

theorem getLast?_toList_getLast? {α : Type} (l : List α) :
    (l.getLast?.toList).getLast? = l.getLast? := by
  cases l.getLast? <;> rfl

theorem getLast?_flatten_lastOf {α : Type} : ∀ cs : List (List α),
    ((cs.map fun c => c.getLast?.toList).flatten).getLast? = cs.flatten.getLast? := by
  intro cs
  induction cs with
  | nil => rfl
  | cons c rest ih =>
    simp only [List.map_cons, List.flatten_cons, List.getLast?_append, ih,
      getLast?_toList_getLast?]

theorem mem_of_len_le_one {α : Type} {l : List α} (h : l.length ≤ 1) :
    ∀ a ∈ l, ∀ b ∈ l, a = b := by
  cases l with
  | nil => intro a ha; cases ha
  | cons x t =>
    cases t with
    | nil =>
      intro a ha b hb
      rw [List.mem_singleton.mp ha, List.mem_singleton.mp hb]
    | cons y t2 => simp at h

theorem pairwise_of_len_le_one {α : Type} {R : α → α → Prop} {l : List α}
    (h : l.length ≤ 1) : l.Pairwise R := by
  cases l with
  | nil => exact List.Pairwise.nil
  | cons x t =>
    cases t with
    | nil => exact List.pairwise_singleton _ _
    | cons y t2 => simp at h

theorem secAt_forall {P : List Rec → Prop} (hnil : P []) :
    ∀ l : List (List Rec), (∀ s ∈ l, P s) → ∀ i, P (secAt l i) := by
  intro l
  induction l with
  | nil => intro _ i; cases i <;> exact hnil
  | cons s rest ih =>
    intro h i
    cases i with
    | zero => exact h s (List.mem_cons_self _ _)
    | succ n => exact ih (fun x hx => h x (List.mem_cons_of_mem _ hx)) n

/-! ### Lawfulness of the byte comparator and byte equality -/

theorem bytesCmp_eq_iff : ∀ a b : Bytes, bytesCmp a b = Ordering.eq ↔ a = b := by
  intro a
  induction a with
  | nil => intro b; cases b <;> simp [bytesCmp]
  | cons x as ih =>
    intro b
    cases b with
    | nil => simp [bytesCmp]
    | cons y bs =>
      simp only [bytesCmp]
      rcases h : compare x y with _ | _ | _
      · simp
        intro hxy
        rw [hxy, Nat.compare_eq_eq.mpr rfl] at h
        cases h
      · rw [ih bs]
        have hxy := Nat.compare_eq_eq.mp h
        subst hxy
        simp
      · simp
        intro hxy
        rw [hxy, Nat.compare_eq_eq.mpr rfl] at h
        cases h

theorem bytesEq_iff : ∀ a b : Bytes, bytesEq a b = true ↔ bytesCmp a b = Ordering.eq := by
  intro a b
  rw [bytesEq, beq_iff_eq, bytesCmp_eq_iff]

/-! ### Sorter pipeline structure -/

theorem flush_sections (s : Sorter) :
    (s.flush cmp deq).sections = s.sections ++ [flushSection cmp deq s.buf.ents] := by
  rcases s with ⟨buf, tw⟩
  cases tw <;> rfl

theorem put_pos (s : Sorter) (key val : Bytes)
    (h : s.buf.byteSize > 0 ∧ s.buf.byteSize + key.length + val.length > bsz) :
    (s.put cmp deq bsz key val).sections =
      s.sections ++ [flushSection cmp deq s.buf.ents] ∧
    (s.put cmp deq bsz key val).buf.ents = [⟨key, val⟩] := by
  rw [Sorter.put]
  simp only [if_pos h]
  exact ⟨flush_sections cmp deq s, rfl⟩

theorem put_neg (s : Sorter) (key val : Bytes)
    (h : ¬(s.buf.byteSize > 0 ∧ s.buf.byteSize + key.length + val.length > bsz)) :
    (s.put cmp deq bsz key val).sections = s.sections ∧
    (s.put cmp deq bsz key val).buf.ents = s.buf.ents ++ [⟨key, val⟩] := by
  rw [Sorter.put]
  simp only [if_neg h]
  exact ⟨rfl, rfl⟩

theorem runPutsFrom_decomp : ∀ (ps : List (Bytes × Bytes)) (s : Sorter)
    (bufs0 : List (List Rec)),
    s.sections = bufs0.map (fun b => flushSection cmp deq b) →
    ∃ bufs : List (List Rec),
      (runPutsFrom cmp deq bsz ps s).sections =
        bufs.map (fun b => flushSection cmp deq b) ∧
      bufs.flatten ++ (runPutsFrom cmp deq bsz ps s).buf.ents =
        bufs0.flatten ++ s.buf.ents ++ ps.map recOf := by
  intro ps
  induction ps with
  | nil =>
    intro s bufs0 h
    exact ⟨bufs0, h, by simp [runPutsFrom]⟩
  | cons p pt ih =>
    intro s bufs0 h
    have hstep : runPutsFrom cmp deq bsz (p :: pt) s =
        runPutsFrom cmp deq bsz pt (s.put cmp deq bsz p.1 p.2) := rfl
    rw [hstep]
    by_cases hc : s.buf.byteSize > 0 ∧ s.buf.byteSize + p.1.length + p.2.length > bsz
    · obtain ⟨hsec, hbuf⟩ := put_pos cmp deq bsz s p.1 p.2 hc
      obtain ⟨bufs, h1, h2⟩ := ih (s.put cmp deq bsz p.1 p.2) (bufs0 ++ [s.buf.ents])
        (by rw [hsec, h, List.map_append]; rfl)
      refine ⟨bufs, h1, ?_⟩
      rw [h2, hbuf]
      simp [recOf, List.flatten_append, List.append_assoc]
    · obtain ⟨hsec, hbuf⟩ := put_neg cmp deq bsz s p.1 p.2 hc
      obtain ⟨bufs, h1, h2⟩ := ih (s.put cmp deq bsz p.1 p.2) bufs0 (by rw [hsec, h])
      refine ⟨bufs, h1, ?_⟩
      rw [h2, hbuf]
      simp [recOf, List.append_assoc]

theorem sortOut_decomp (ps : List (Bytes × Bytes)) :
    ∃ bufs : List (List Rec),
      bufs.flatten = ps.map recOf ∧
      sortOut cmp deq bsz ps =
        dedupAdj deq (streamRecs cmp
          (initMerge (bufs.map fun b => flushSection cmp deq b))) := by
  obtain ⟨bufs, h1, h2⟩ := runPutsFrom_decomp cmp deq bsz ps {} [] rfl
  refine ⟨bufs ++ [(runPuts cmp deq bsz ps).buf.ents], ?_, ?_⟩
  · rw [List.flatten_append]
    simpa [runPuts] using h2
  · rw [sortOut, iterOut_eq_dedupAdj]
    have : ((runPuts cmp deq bsz ps).flush cmp deq).sections =
        (bufs ++ [(runPuts cmp deq bsz ps).buf.ents]).map
          (fun b => flushSection cmp deq b) := by
      rw [flush_sections]
      rw [show (runPuts cmp deq bsz ps).sections =
        bufs.map (fun b => flushSection cmp deq b) from h1]
      rw [List.map_append]
      rfl
    rw [this]

theorem flushSection_secAt_sorted [Batteries.TransCmp cmp] (bufs : List (List Rec)) :
    ∀ i, (secAt (bufs.map fun b => flushSection cmp deq b) i).Pairwise (KeyLe cmp) := by
  apply secAt_forall List.Pairwise.nil
  intro s hs
  obtain ⟨b, -, rfl⟩ := List.mem_map.mp hs
  exact flushSection_sorted cmp deq b

/-! ### The tagged class filter of the stream -/

theorem taggedFrom_filter_class_pairwise [Batteries.TransCmp cmp]
    (hdeq : ∀ a b : Bytes, deq a b = true ↔ cmp a b = Ordering.eq) (k : Bytes) :
    ∀ (secs : List (List Rec)) (n : Nat),
      (∀ s ∈ secs, (s.filter fun r => deq r.key k).length ≤ 1) →
      ((taggedFrom n secs).filter fun e => deq e.2.key k).Pairwise (HLe cmp) := by
  intro secs
  induction secs with
  | nil => intro n _; exact List.Pairwise.nil
  | cons s rest ih =>
    intro n hlen
    rw [taggedFrom, List.filter_append, List.pairwise_append]
    refine ⟨?_, ih (n + 1) (fun x hx => hlen x (List.mem_cons_of_mem _ hx)), ?_⟩
    · rw [List.filter_map]
      apply pairwise_of_len_le_one
      rw [List.length_map]
      exact hlen s (List.mem_cons_self _ _)
    · intro x hx y hy
      have hx2 := List.mem_filter.mp hx
      have hy2 := List.mem_filter.mp hy
      obtain ⟨r, hr, hxr⟩ := List.mem_map.mp hx2.1
      have hyidx : n + 1 ≤ y.1 := by
        obtain ⟨j, hj, -⟩ := (mem_taggedFrom (n + 1) rest y).mp hy2.1
        omega
      have hxk : cmp x.2.key k = Ordering.eq := (hdeq _ _).mp hx2.2
      have hyk : cmp y.2.key k = Ordering.eq := (hdeq _ _).mp hy2.2
      have hxy : cmp x.2.key y.2.key = Ordering.eq := by
        rw [Batteries.TransCmp.cmp_congr_right hyk]
        exact hxk
      rw [HLe, heapLE_iff]
      refine Or.inr ⟨hxy, ?_⟩
      have hx1 : x.1 = n := by rw [← hxr]
      omega

theorem streamRecs_filter_eq_flatten_filter [Batteries.TransCmp cmp]
    (hdeq : ∀ a b : Bytes, deq a b = true ↔ cmp a b = Ordering.eq)
    (secs : List (List Rec)) (k : Bytes)
    (hsort : ∀ i, (secAt secs i).Pairwise (KeyLe cmp))
    (hlen : ∀ s ∈ secs, (s.filter fun r => deq r.key k).length ≤ 1) :
    (streamRecs cmp (initMerge secs)).filter (fun r => deq r.key k) =
      secs.flatten.filter (fun r => deq r.key k) := by
  have hlen2 : ∀ i, ((secAt secs i).filter fun r => deq r.key k).length ≤ 1 :=
    @secAt_forall (fun s => (s.filter fun r => deq r.key k).length ≤ 1)
      (by simp) secs hlen
  have hTF : ((streamT cmp (initMerge secs)).filter
      fun e => deq e.2.key k).Pairwise (HLe cmp) :=
    (streamT_sorted cmp _ (initMerge_minv cmp secs hsort)).filter _
  have hTC := taggedFrom_filter_class_pairwise cmp deq hdeq k secs 0 hlen
  have hperm := (streamT_initMerge_perm cmp secs).filter fun e => deq e.2.key k
  have hanti : ∀ a ∈ (streamT cmp (initMerge secs)).filter (fun e => deq e.2.key k),
      ∀ b ∈ (streamT cmp (initMerge secs)).filter (fun e => deq e.2.key k),
      HLe cmp a b → HLe cmp b a → a = b := by
    intro a ha b hb hab hba
    rw [HLe, heapLE_iff] at hab hba
    have hak : cmp a.2.key k = Ordering.eq :=
      (hdeq _ _).mp (List.mem_filter.mp ha).2
    have hbk : cmp b.2.key k = Ordering.eq :=
      (hdeq _ _).mp (List.mem_filter.mp hb).2
    have hcmpeq : cmp a.2.key b.2.key = Ordering.eq := by
      rw [Batteries.TransCmp.cmp_congr_right hbk]
      exact hak
    have hidx : a.1 = b.1 := by
      rcases hab with h1 | ⟨-, h1⟩
      · rw [h1] at hcmpeq; cases hcmpeq
      · rcases hba with h2 | ⟨-, h2⟩
        · rw [Batteries.OrientedCmp.cmp_eq_eq_symm.mp hcmpeq] at h2; cases h2
        · omega
    have haT : a ∈ taggedOf secs := (List.mem_filter.mp (hperm.mem_iff.mp ha)).1
    have hbT : b ∈ taggedOf secs := (List.mem_filter.mp (hperm.mem_iff.mp hb)).1
    obtain ⟨ja, hja, hma⟩ := (mem_taggedFrom 0 secs a).mp haT
    obtain ⟨jb, hjb, hmb⟩ := (mem_taggedFrom 0 secs b).mp hbT
    have hja' : ja = a.1 := by omega
    have hjb' : jb = b.1 := by omega
    rw [hja'] at hma
    rw [hjb', ← hidx] at hmb
    have hmemfa : a.2 ∈ (secAt secs a.1).filter (fun r => deq r.key k) :=
      List.mem_filter.mpr ⟨hma, (List.mem_filter.mp ha).2⟩
    have hmemfb : b.2 ∈ (secAt secs a.1).filter (fun r => deq r.key k) :=
      List.mem_filter.mpr ⟨hmb, (List.mem_filter.mp hb).2⟩
    have hsnd : a.2 = b.2 := mem_of_len_le_one (hlen2 a.1) a.2 hmemfa b.2 hmemfb
    obtain ⟨a1, a2⟩ := a
    obtain ⟨b1, b2⟩ := b
    simp only at hidx hsnd
    rw [hidx, hsnd]
  have hmain := sorted_perm_unique _ _ hperm hTF hTC hanti
  have h1 : (streamRecs cmp (initMerge secs)).filter (fun r => deq r.key k) =
      ((streamT cmp (initMerge secs)).filter fun e => deq e.2.key k).map Prod.snd := by
    rw [streamRecs, List.filter_map]
    rfl
  have h2 : secs.flatten.filter (fun r => deq r.key k) =
      ((taggedOf secs).filter fun e => deq e.2.key k).map Prod.snd := by
    rw [← taggedFrom_map_snd 0 secs, List.filter_map]
    rfl
  rw [h1, h2, hmain]

/-! ### Size accounting -/

theorem recsBytes_append (l : List Rec) (r : Rec) :
    recsBytes (l ++ [r]) = recsBytes l + r.size := by
  simp [recsBytes]

theorem size_eq (s : Sorter) :
    s.size = s.buf.size + (s.tw.map TempWriter.size).getD 0 := by
  rcases s with ⟨buf, tw⟩
  cases tw <;> simp [Sorter.size, MemBuffer.byteSize]

theorem flush_tw_size (s : Sorter) :
    ((s.flush cmp deq).tw.map TempWriter.size).getD 0 =
      (s.tw.map TempWriter.size).getD 0 +
        recsBytes (flushSection cmp deq s.buf.ents) := by
  rcases s with ⟨buf, tw⟩
  cases tw <;> rfl

theorem size_inv_aux : ∀ (ps : List (Bytes × Bytes)) (s : Sorter),
    s.buf.size = recsBytes s.buf.ents →
    (s.tw.map TempWriter.size).getD 0 = (s.sections.map recsBytes).sum →
    (runPutsFrom cmp deq bsz ps s).buf.size =
      recsBytes (runPutsFrom cmp deq bsz ps s).buf.ents ∧
    ((runPutsFrom cmp deq bsz ps s).tw.map TempWriter.size).getD 0 =
      ((runPutsFrom cmp deq bsz ps s).sections.map recsBytes).sum := by
  intro ps
  induction ps with
  | nil => intro s h1 h2; exact ⟨h1, h2⟩
  | cons p pt ih =>
    intro s h1 h2
    have hstep : runPutsFrom cmp deq bsz (p :: pt) s =
        runPutsFrom cmp deq bsz pt (s.put cmp deq bsz p.1 p.2) := rfl
    rw [hstep]
    apply ih
    · by_cases hc : s.buf.byteSize > 0 ∧ s.buf.byteSize + p.1.length + p.2.length > bsz
      · rw [Sorter.put]
        simp only [if_pos hc]
        simp [Sorter.flush, MemBuffer.reset, MemBuffer.append, recsBytes, Rec.size]
      · rw [Sorter.put]
        simp only [if_neg hc]
        simp only [MemBuffer.append, recsBytes_append]
        rw [h1]
        simp [Rec.size]
        omega
    · by_cases hc : s.buf.byteSize > 0 ∧ s.buf.byteSize + p.1.length + p.2.length > bsz
      · rw [Sorter.put]
        simp only [if_pos hc]
        have hgoal : ((Sorter.flush cmp deq s).tw.map TempWriter.size).getD 0 =
            ((Sorter.flush cmp deq s).sections.map recsBytes).sum := by
          rw [flush_tw_size cmp deq s, flush_sections cmp deq s, h2]
          simp
        exact hgoal
      · rw [Sorter.put]
        simp only [if_neg hc]
        exact h2

/-! ### Claim theorems -/

/-- C1: for every sequence of `Put`/`Append` calls, the sequence of records
produced by iterating the `Iterator` returned from `Sort()` is sorted under
the configured comparator: consecutive outputs `a, b` satisfy
`compare(a.Key, b.Key) <= 0`, i.e. the comparison is never `gt`. -/
theorem C1_sort_output_sorted [Batteries.TransCmp cmp] (ps : List (Bytes × Bytes)) :
    (sortOut cmp deq bsz ps).Chain' fun a b => cmp a.key b.key ≠ Ordering.gt := by
  obtain ⟨bufs, hflat, hout⟩ := sortOut_decomp cmp deq bsz ps
  rw [hout]
  have h2 := (streamRecs_sorted cmp _ (flushSection_secAt_sorted cmp deq bufs)).sublist
    (dedupAdj_sublist deq _)
  exact h2.chain'

/-- C1 witness: the sortedness theorem applied to the byte comparator, the
byte-equality dedup predicate, buffer size 1 and a concrete input. -/
theorem C1_sort_output_sorted_witness :
    (sortOut bytesCmp bytesEq 1
      [([98], [49]), ([97], [49]), ([98], [50])]).Chain'
      fun a b => bytesCmp a.key b.key ≠ Ordering.gt :=
  C1_sort_output_sorted bytesCmp bytesEq 1 [([98], [49]), ([97], [49]), ([98], [50])]

/-- C3: when no equality predicate is configured (deduplication disabled,
modelled by the never-equal predicate), the iterator output is a permutation
of the inserted records: no drops and no duplications. -/
theorem C3_no_dedup_permutation (ps : List (Bytes × Bytes)) :
    (sortOut cmp neverEq bsz ps).Perm (ps.map recOf) := by
  obtain ⟨bufs, hflat, hout⟩ := sortOut_decomp cmp neverEq bsz ps
  rw [hout]
  rw [dedupAdj_id_of_chain neverEq _ (chain'_of_forall (fun _ _ => rfl) _)]
  have hsecs : (bufs.map fun b => flushSection cmp neverEq b) =
      bufs.map (sortRecs cmp) := by
    apply List.map_congr_left
    intro b _
    rw [flushSection, dedupAdj_id_of_chain neverEq _ (chain'_of_forall (fun _ _ => rfl) _)]
  rw [hsecs]
  refine (streamRecs_initMerge_perm cmp _).trans ?_
  refine (flatten_map_perm (sortRecs_perm cmp) bufs).trans ?_
  rw [hflat]

/-- C2: when an equality predicate compatible with the comparator is
configured, each nonempty class of key-equal inserted records contributes
exactly one record to the output: the record that was inserted last in that
class (last-write-wins). -/
theorem C2_last_write_wins [Batteries.TransCmp cmp]
    (hdeq : ∀ a b : Bytes, deq a b = true ↔ cmp a b = Ordering.eq)
    (ps : List (Bytes × Bytes)) (k : Bytes)
    (hne : (ps.map recOf).filter (fun r => deq r.key k) ≠ []) :
    (sortOut cmp deq bsz ps).filter (fun r => deq r.key k) =
      [((ps.map recOf).filter (fun r => deq r.key k)).getLast hne] := by
  obtain ⟨bufs, hflat, hout⟩ := sortOut_decomp cmp deq bsz ps
  have hsort := flushSection_secAt_sorted cmp deq bufs
  have hlen : ∀ s ∈ (bufs.map fun b => flushSection cmp deq b),
      (s.filter fun r => deq r.key k).length ≤ 1 := by
    intro s hs
    obtain ⟨b, -, rfl⟩ := List.mem_map.mp hs
    rw [flushSection_filter_class cmp deq hdeq b k]
    cases (b.filter fun r => deq r.key k).getLast? <;> simp
  rw [hout]
  rw [dedupAdj_filter_class cmp deq hdeq _
    (streamRecs_sorted cmp _ hsort) k]
  rw [streamRecs_filter_eq_flatten_filter cmp deq hdeq _ k hsort hlen]
  rw [filter_flatten]
  have hmapmap : (bufs.map fun b => flushSection cmp deq b).map
      (fun s => s.filter fun r => deq r.key k) =
      bufs.map fun b => ((b.filter fun r => deq r.key k).getLast?).toList := by
    rw [List.map_map]
    apply List.map_congr_left
    intro b _
    exact flushSection_filter_class cmp deq hdeq b k
  rw [hmapmap]
  have hcs : (bufs.map fun b => ((b.filter fun r => deq r.key k).getLast?).toList) =
      (bufs.map fun b => b.filter fun r => deq r.key k).map
        fun c => c.getLast?.toList := by
    rw [List.map_map]
    rfl
  rw [hcs, getLast?_flatten_lastOf, ← filter_flatten, hflat,
    List.getLast?_eq_getLast _ hne]
  rfl

/-- C2 witness: the spec's concrete scenario: inserting
`("b","1"), ("a","1"), ("b","2")` with the byte comparator and byte equality,
the class of key `"b"` keeps exactly its later value, and the full output is
`[("a","1"), ("b","2")]`. -/
theorem C2_last_write_wins_witness :
    (sortOut bytesCmp bytesEq 100
        [([98], [49]), ([97], [49]), ([98], [50])]).filter
        (fun r => bytesEq r.key [98]) = [⟨[98], [50]⟩] ∧
    sortOut bytesCmp bytesEq 100 [([98], [49]), ([97], [49]), ([98], [50])] =
      [⟨[97], [49]⟩, ⟨[98], [50]⟩] := by
  constructor
  · have h := C2_last_write_wins bytesCmp bytesEq 100 bytesEq_iff
      [([98], [49]), ([97], [49]), ([98], [50])] [98] (by decide)
    rw [h]
    rfl
  · rfl

/-- C4: for records with pairwise distinct keys (and a dedup predicate that
only identifies comparator-equal keys), the iterator output of `Sort()` does
not depend on the configured buffer size: any two buffer sizes produce the
same output sequence. -/
theorem C4_buffer_size_independent [Batteries.TransCmp cmp]
    (hsub : ∀ a b : Bytes, deq a b = true → cmp a b = Ordering.eq)
    (ps : List (Bytes × Bytes))
    (hdist : (ps.map recOf).Pairwise fun r s => cmp r.key s.key ≠ Ordering.eq)
    (b1 b2 : Nat) :
    sortOut cmp deq b1 ps = sortOut cmp deq b2 ps := by
  have hsym : Symmetric fun r s : Rec => cmp r.key s.key ≠ Ordering.eq := by
    intro r s h he
    exact h (Batteries.OrientedCmp.cmp_eq_eq_symm.mp he)
  have key : ∀ b : Nat, (sortOut cmp deq b ps).Perm (ps.map recOf) ∧
      (sortOut cmp deq b ps).Pairwise (KeyLe cmp) := by
    intro b
    obtain ⟨bufs, hflat, hout⟩ := sortOut_decomp cmp deq b ps
    have hbufdist : ∀ c ∈ bufs, c.Pairwise fun r s => cmp r.key s.key ≠ Ordering.eq := by
      intro c hc
      have hsub2 : c.Sublist (ps.map recOf) := by
        rw [← hflat]
        exact List.sublist_flatten_of_mem hc
      exact hdist.sublist hsub2
    have hsecs : (bufs.map fun c => flushSection cmp deq c) =
        bufs.map (sortRecs cmp) := by
      apply List.map_congr_left
      intro c hc
      rw [flushSection]
      apply dedupAdj_id_of_chain
      have hdp : (sortRecs cmp c).Pairwise fun r s => cmp r.key s.key ≠ Ordering.eq :=
        ((sortRecs_perm cmp c).pairwise_iff fun h => hsym h).mpr (hbufdist c hc)
      refine List.Pairwise.chain' (hdp.imp ?_)
      intro r s hrs
      rw [← Bool.not_eq_true]
      intro hd
      exact hrs (hsub _ _ hd)
    have hperm : (sortOut cmp deq b ps).Perm (ps.map recOf) := by
      rw [hout]
      have hstream : (streamRecs cmp (initMerge
          (bufs.map fun c => flushSection cmp deq c))).Perm (ps.map recOf) := by
        rw [hsecs]
        refine (streamRecs_initMerge_perm cmp _).trans ?_
        refine (flatten_map_perm (sortRecs_perm cmp) bufs).trans ?_
        rw [hflat]
      have hstrdist : (streamRecs cmp (initMerge
          (bufs.map fun c => flushSection cmp deq c))).Pairwise
          fun r s : Rec => cmp r.key s.key ≠ Ordering.eq :=
        (hstream.pairwise_iff fun h => hsym h).mpr hdist
      rw [dedupAdj_id_of_chain]
      · exact hstream
      · refine List.Pairwise.chain' (hstrdist.imp ?_)
        intro r s hrs
        rw [← Bool.not_eq_true]
        intro hd
        exact hrs (hsub _ _ hd)
    refine ⟨hperm, ?_⟩
    rw [hout]
    exact (streamRecs_sorted cmp _ (flushSection_secAt_sorted cmp deq bufs)).sublist
      (dedupAdj_sublist deq _)
  obtain ⟨hp1, hs1⟩ := key b1
  obtain ⟨hp2, hs2⟩ := key b2
  refine sorted_perm_unique _ _ (hp1.trans hp2.symm) hs1 hs2 ?_
  intro a ha x hx hax hxa
  have hamem : a ∈ ps.map recOf := hp1.subset ha
  have hxmem : x ∈ ps.map recOf := hp1.subset hx
  have heq : cmp a.key x.key = Ordering.eq := by
    rcases hc : cmp a.key x.key with _ | _ | _
    · exact absurd (Batteries.OrientedCmp.cmp_eq_gt.mpr hc) hxa
    · rfl
    · exact absurd hc hax
  by_contra hne
  exact hdist.forall hsym hamem hxmem hne heq

/-- C5: every section written by a flush satisfies the section invariant:
the keys are non-decreasing under the comparator, no two adjacent records are
equal under the (comparator-compatible) equality predicate, the section is
committed after the previous sections, and the buffer is reset. -/
theorem C5_flush_section_invariant [Batteries.TransCmp cmp]
    (hdeq : ∀ a b : Bytes, deq a b = true ↔ cmp a b = Ordering.eq) (s : Sorter) :
    (s.flush cmp deq).sections =
      s.sections ++ [flushSection cmp deq s.buf.ents] ∧
    (s.flush cmp deq).buf = {} ∧
    (flushSection cmp deq s.buf.ents).Chain'
      (fun a b => cmp a.key b.key ≠ Ordering.gt) ∧
    (flushSection cmp deq s.buf.ents).Chain'
      (fun a b => deq a.key b.key = false) :=
  ⟨flush_sections cmp deq s, rfl, (flushSection_sorted cmp deq _).chain',
    flushSection_chain_ne cmp deq hdeq _⟩

/-- C5 witness: the flush invariant at the byte comparator with a concrete
unsorted buffer holding a duplicate key. -/
theorem C5_flush_section_invariant_witness :
    (Sorter.flush bytesCmp bytesEq
      { buf := { ents := [⟨[98], [49]⟩, ⟨[97], [49]⟩, ⟨[98], [50]⟩], size := 6 },
        tw := none }).sections =
      [] ++ [flushSection bytesCmp bytesEq [⟨[98], [49]⟩, ⟨[97], [49]⟩, ⟨[98], [50]⟩]] ∧
    (Sorter.flush bytesCmp bytesEq
      { buf := { ents := [⟨[98], [49]⟩, ⟨[97], [49]⟩, ⟨[98], [50]⟩], size := 6 },
        tw := none }).buf = {} ∧
    (flushSection bytesCmp bytesEq
      [⟨[98], [49]⟩, ⟨[97], [49]⟩, ⟨[98], [50]⟩]).Chain'
      (fun a b => bytesCmp a.key b.key ≠ Ordering.gt) ∧
    (flushSection bytesCmp bytesEq
      [⟨[98], [49]⟩, ⟨[97], [49]⟩, ⟨[98], [50]⟩]).Chain'
      (fun a b => bytesEq a.key b.key = false) :=
  C5_flush_section_invariant bytesCmp bytesEq bytesEq_iff
    { buf := { ents := [⟨[98], [49]⟩, ⟨[97], [49]⟩, ⟨[98], [50]⟩], size := 6 },
      tw := none }

/-- C6: `Put(key, value)` flushes before appending exactly when the buffer
byte size is positive and would grow beyond the threshold; otherwise it
appends without a flush. -/
theorem C6_put_flush_trigger (s : Sorter) (key val : Bytes) :
    (s.put cmp deq bsz key val).sections =
      (if s.buf.byteSize > 0 ∧ s.buf.byteSize + key.length + val.length > bsz
        then s.sections ++ [flushSection cmp deq s.buf.ents] else s.sections) ∧
    (s.put cmp deq bsz key val).buf.ents =
      (if s.buf.byteSize > 0 ∧ s.buf.byteSize + key.length + val.length > bsz
        then ([] : List Rec) else s.buf.ents) ++ [⟨key, val⟩] := by
  by_cases hc : s.buf.byteSize > 0 ∧ s.buf.byteSize + key.length + val.length > bsz
  · obtain ⟨h1, h2⟩ := put_pos cmp deq bsz s key val hc
    rw [if_pos hc, if_pos hc, h1, h2]
    exact ⟨rfl, rfl⟩
  · obtain ⟨h1, h2⟩ := put_neg cmp deq bsz s key val hc
    rw [if_neg hc, if_neg hc, h1, h2]
    exact ⟨rfl, rfl⟩

/-- C8: at every point of the sort operation's lifetime (after any sequence
of `Put` calls, and after the final flush performed by `Sort()`), `Size()`
equals the byte size of the records currently buffered plus the bytes written
to all committed sections (zero before the writer exists). -/
theorem C8_size_accounting (ps : List (Bytes × Bytes)) :
    (runPuts cmp deq bsz ps).size =
      recsBytes (runPuts cmp deq bsz ps).buf.ents +
        (((runPuts cmp deq bsz ps).sections).map recsBytes).sum ∧
    ((runPuts cmp deq bsz ps).flush cmp deq).size =
      recsBytes ((runPuts cmp deq bsz ps).flush cmp deq).buf.ents +
        ((((runPuts cmp deq bsz ps).flush cmp deq).sections).map recsBytes).sum := by
  obtain ⟨h1, h2⟩ := size_inv_aux cmp deq bsz ps {} rfl rfl
  constructor
  · rw [size_eq, runPuts, h1, h2]
  · rw [size_eq, flush_tw_size, flush_sections]
    have hbuf : ((runPuts cmp deq bsz ps).flush cmp deq).buf = ({} : MemBuffer) := rfl
    rw [hbuf, runPuts, h2]
    simp [recsBytes]

/-- C10: a sequence of `Put` calls in which every key and value is empty
never triggers a flush: the temp writer is never created even though the
records do accumulate in the buffer. -/
theorem C10_empty_records_never_flush (ps : List (Bytes × Bytes))
    (h : ∀ p ∈ ps, p.1 = [] ∧ p.2 = []) :
    (runPuts cmp deq bsz ps).tw = none ∧
    (runPuts cmp deq bsz ps).buf.ents.length = ps.length := by
  have aux : ∀ (qs : List (Bytes × Bytes)) (s : Sorter),
      (∀ p ∈ qs, p.1 = [] ∧ p.2 = []) → s.buf.size = 0 →
      (runPutsFrom cmp deq bsz qs s).tw = s.tw ∧
      (runPutsFrom cmp deq bsz qs s).buf.size = 0 ∧
      (runPutsFrom cmp deq bsz qs s).buf.ents.length =
        s.buf.ents.length + qs.length := by
    intro qs
    induction qs with
    | nil => intro s _ h0; exact ⟨rfl, h0, rfl⟩
    | cons p pt ih =>
      intro s hq h0
      obtain ⟨hk, hv⟩ := hq p (List.mem_cons_self _ _)
      have hstep : runPutsFrom cmp deq bsz (p :: pt) s =
          runPutsFrom cmp deq bsz pt (s.put cmp deq bsz p.1 p.2) := rfl
      rw [hstep]
      have hc : ¬(s.buf.byteSize > 0 ∧
          s.buf.byteSize + p.1.length + p.2.length > bsz) := by
        rw [MemBuffer.byteSize, h0]
        simp
      have hput : s.put cmp deq bsz p.1 p.2 =
          { s with buf := s.buf.append p.1 p.2 } := by
        rw [Sorter.put]
        simp only [if_neg hc]
      rw [hput]
      obtain ⟨i1, i2, i3⟩ := ih { s with buf := s.buf.append p.1 p.2 }
        (fun x hx => hq x (List.mem_cons_of_mem _ hx))
        (by simp [MemBuffer.append, h0, hk, hv])
      refine ⟨i1, i2, ?_⟩
      rw [i3]
      simp [MemBuffer.append]
      omega
  obtain ⟨a1, a2, a3⟩ := aux ps {} h rfl
  exact ⟨a1, by rw [runPuts, a3]; simp⟩

/-- C10 witness: two empty-record `Put` calls leave the writer uncreated. -/
theorem C10_empty_records_never_flush_witness :
    (runPuts bytesCmp bytesEq 0 [([], []), ([], [])]).tw = none ∧
    (runPuts bytesCmp bytesEq 0 [([], []), ([], [])]).buf.ents.length = 2 :=
  C10_empty_records_never_flush bytesCmp bytesEq 0 [([], []), ([], [])] (by decide)

/-- C4 witness: the byte comparator with three distinct keys, buffer sizes 0
(flush on every `Put`) and 100 (one section). -/
theorem C4_buffer_size_independent_witness :
    sortOut bytesCmp bytesEq 0 [([99], []), ([97], []), ([98], [])] =
      sortOut bytesCmp bytesEq 100 [([99], []), ([97], []), ([98], [])] :=
  C4_buffer_size_independent bytesCmp bytesEq
    (fun a b h => (bytesEq_iff a b).mp h)
    [([99], []), ([97], []), ([98], [])] (by decide) 0 100

/-! ### The errored iterator -/

theorem fnext_err_of_ok {st st2 : FIter} (h0 : st.err = none)
    (h : fnext cmp st = (true, st2)) : st2.err = none := by
  rw [fnext, h0] at h
  simp only [Option.isSome_none, Bool.false_eq_true, if_false] at h
  rcases hp : popMin cmp st.heap with _ | ⟨⟨i, r⟩, hh⟩ <;> simp only [hp] at h
  · simp at h
  · rcases hr : freadNext i st.secs with ⟨o, secs2⟩
    simp only [hr] at h
    rcases o with _ | c
    · simp only [Prod.mk.injEq] at h
      rw [← h.2]
    · rcases c with e2 | r2
      · simp at h
      · simp only [Prod.mk.injEq] at h
        rw [← h.2]

theorem fNextLoop_quiesce : ∀ (fu : Nat) (ent : Rec) (st : FIter),
    st.err = none → ∀ b st2, fNextLoop cmp deq fu ent st = (b, st2) →
      st2.err = none ∨ st2.nextOK = false := by
  intro fu
  induction fu with
  | zero =>
    intro ent st h0 b st2 h
    simp only [fNextLoop, Prod.mk.injEq] at h
    rw [← h.2]
    exact Or.inr rfl
  | succ n ih =>
    intro ent st h0 b st2 h
    rcases hn : fnext cmp st with ⟨bb, stf⟩
    simp only [fNextLoop, hn] at h
    cases bb with
    | false =>
      simp only [Prod.mk.injEq] at h
      rw [← h.2]
      exact Or.inr rfl
    | true =>
      have herrf : stf.err = none := fnext_err_of_ok cmp h0 hn
      rcases hne : stf.nextEnt with _ | la
      · simp only [hne, Prod.mk.injEq] at h
        rw [← h.2]
        exact Or.inr rfl
      · simp only [hne] at h
        by_cases hd : deq ent.key la.key = true
        · rw [if_pos hd] at h
          exact ih la stf herrf b st2 h
        · rw [if_neg hd] at h
          simp only [Prod.mk.injEq] at h
          rw [← h.2]
          exact Or.inl herrf

theorem fNext_quiesce (st : FIter) (h0 : st.err = none) :
    ((fNext cmp deq st).2).err = none ∨ ((fNext cmp deq st).2).nextOK = false := by
  rw [fNext]
  by_cases hok : st.nextOK = true
  · simp only [if_pos hok]
    rcases hne : st.nextEnt with _ | ent
    · exact Or.inr rfl
    · rcases hr : fNextLoop cmp deq st.fmsize ent st with ⟨b, st2⟩
      have := fNextLoop_quiesce cmp deq st.fmsize ent st h0 b st2 hr
      simpa [hr] using this
  · simp only [if_neg hok]
    exact Or.inl h0

theorem fNext_stuck (st : FIter) (h2 : st.nextOK = false) :
    fNext cmp deq st = (false, st) := by
  rw [fNext, if_neg (by simp [h2])]

/-- C7: once a decode failure is captured during iteration (a `Next` call on a
previously un-errored iterator leaves `err` set), the iterator is permanently
errored: every subsequent `Next` call reports no further records and leaves
the state unchanged, and `Err()` keeps returning the captured error. -/
theorem C7_error_sticky (st : FIter) (e : String)
    (h0 : st.err = none) (hcap : ((fNext cmp deq st).2).err = some e) (n : Nat) :
    fNext cmp deq (fNextIter cmp deq n (fNext cmp deq st).2) =
      (false, fNextIter cmp deq n (fNext cmp deq st).2) ∧
    (fNextIter cmp deq n (fNext cmp deq st).2).err = some e := by
  have hok : ((fNext cmp deq st).2).nextOK = false := by
    rcases fNext_quiesce cmp deq st h0 with h | h
    · rw [h] at hcap; cases hcap
    · exact h
  have hfix : ∀ m, fNextIter cmp deq m (fNext cmp deq st).2 = (fNext cmp deq st).2 := by
    intro m
    induction m with
    | zero => rfl
    | succ m ih =>
      rw [fNextIter, Function.iterate_succ_apply]
      have hstep : (fNext cmp deq (fNext cmp deq st).2).2 = (fNext cmp deq st).2 := by
        rw [fNext_stuck cmp deq _ hok]
      rw [hstep]
      rw [fNextIter] at ih
      exact ih
  rw [hfix n]
  exact ⟨fNext_stuck cmp deq _ hok, hcap⟩

/-- C7 witness: a single-section iterator whose first stored cell is corrupt;
the first `Next` captures the decode error, and after one further `Next` call
the iterator still reports no records and `Err()` is still the error. -/
theorem C7_error_sticky_witness :
    fNext bytesCmp bytesEq (fNextIter bytesCmp bytesEq 1 (fNext bytesCmp bytesEq
        ⟨[[Except.error "boom"]], [(0, ⟨[], []⟩)], some ⟨[], []⟩, none, true⟩).2) =
      (false, fNextIter bytesCmp bytesEq 1 (fNext bytesCmp bytesEq
        ⟨[[Except.error "boom"]], [(0, ⟨[], []⟩)], some ⟨[], []⟩, none, true⟩).2) ∧
    (fNextIter bytesCmp bytesEq 1 (fNext bytesCmp bytesEq
        ⟨[[Except.error "boom"]], [(0, ⟨[], []⟩)], some ⟨[], []⟩, none, true⟩).2).err =
      some "boom" :=
  C7_error_sticky bytesCmp bytesEq
    ⟨[[Except.error "boom"]], [(0, ⟨[], []⟩)], some ⟨[], []⟩, none, true⟩
    "boom" rfl rfl 1

/-! ### The failing flush inside Put -/

theorem fflushWith_error_buf {s s1 : FSorter} {e : String}
    (h : fflushWith cmp deq s = (Except.error e, s1)) :
    s1.buf = { ents := sortRecs cmp s.buf.ents, size := s.buf.size } := by
  simp only [fflushWith] at h
  rcases hfe : fencode (dedupAdj deq (sortRecs cmp s.buf.ents)) (s.tw.getD {})
      s.plan
    with ⟨o, tw1, p2⟩
  simp only [hfe] at h
  rcases o with _ | e2
  · rcases his : ioStep p2 with ⟨o2, p3⟩
    simp only [his] at h
    rcases o2 with _ | e3
    · simp at h
    · simp only [Prod.mk.injEq] at h
      rw [← h.2]
  · simp only [Prod.mk.injEq] at h
    rw [← h.2]

theorem fflush_error_buf {s s1 : FSorter} {e : String}
    (h : fflush cmp deq s = (Except.error e, s1)) :
    s1.buf = s.buf ∨
      s1.buf = { ents := sortRecs cmp s.buf.ents, size := s.buf.size } := by
  rcases htw : s.tw with _ | tw
  · rw [fflush, htw] at h
    rcases his : ioStep s.plan with ⟨o, p2⟩
    simp only [his] at h
    rcases o with _ | e2
    · have h2 : fflushWith cmp deq { s with tw := some {}, plan := p2 } =
          (Except.error e, s1) := h
      have h3 := fflushWith_error_buf cmp deq h2
      exact Or.inr h3
    · have h2 : ((Except.error e2, { s with tw := none, plan := p2 }) :
          Except String Unit × FSorter) = (Except.error e, s1) := h
      simp only [Prod.mk.injEq] at h2
      exact Or.inl (by rw [← h2.2])
  · rw [fflush, htw] at h
    have h2 : fflushWith cmp deq s = (Except.error e, s1) := h
    have h3 := fflushWith_error_buf cmp deq h2
    exact Or.inr h3

/-- C9: when a Put call triggers a flush and the flush fails, Put returns the
flush error and the incoming record is not appended: the resulting state is
exactly what the failed flush left behind, whose buffer holds exactly the
pre-flush records and no part of the new record — untouched if the temp-writer
creation failed, otherwise reordered by the in-place sort (extsort.go line 78)
but unreset. -/
theorem C9_put_flush_error (s : FSorter) (key val : Bytes) (e : String)
    (s1 : FSorter)
    (hcond : s.buf.byteSize > 0 ∧ s.buf.byteSize + key.length + val.length > bsz)
    (hflush : fflush cmp deq s = (Except.error e, s1)) :
    fput cmp deq bsz s key val = (Except.error e, s1) ∧
      s1.buf.ents.Perm s.buf.ents ∧
      (s1.buf = s.buf ∨
        s1.buf = { ents := sortRecs cmp s.buf.ents, size := s.buf.size }) := by
  have hb := fflush_error_buf cmp deq hflush
  refine ⟨?_, ?_, hb⟩
  · rw [fput, if_pos hcond, hflush]
  · rcases hb with h | h
    · rw [h]
    · rw [h]
      exact sortRecs_perm cmp s.buf.ents

/-- C9 witness: `Encode` fails with `disk full` during a threshold-exceeding
`Put`; the error propagates, the state is the one the failed flush produced,
and the buffer holds the same two records — sorted in place, not reset, with
no trace of the new record. -/
theorem C9_put_flush_error_witness :
    fput bytesCmp bytesEq 1
        ⟨⟨[⟨[1], []⟩, ⟨[0], []⟩], 2⟩, some {}, [some "disk full"]⟩ [0] [0] =
      (Except.error "disk full",
        ⟨⟨[⟨[0], []⟩, ⟨[1], []⟩], 2⟩, some {}, []⟩) ∧
    ([⟨[0], []⟩, ⟨[1], []⟩] : List Rec).Perm [⟨[1], []⟩, ⟨[0], []⟩] ∧
    ((⟨⟨[⟨[0], []⟩, ⟨[1], []⟩], 2⟩, some {}, []⟩ : FSorter).buf =
        (⟨⟨[⟨[1], []⟩, ⟨[0], []⟩], 2⟩, some {}, [some "disk full"]⟩ :
          FSorter).buf ∨
      (⟨⟨[⟨[0], []⟩, ⟨[1], []⟩], 2⟩, some {}, []⟩ : FSorter).buf =
        { ents := sortRecs bytesCmp [⟨[1], []⟩, ⟨[0], []⟩], size := 2 }) :=
  C9_put_flush_error bytesCmp bytesEq 1
    ⟨⟨[⟨[1], []⟩, ⟨[0], []⟩], 2⟩, some {}, [some "disk full"]⟩ [0] [0]
    "disk full" ⟨⟨[⟨[0], []⟩, ⟨[1], []⟩], 2⟩, some {}, []⟩ (by decide) rfl

end Extsort
